import Mathlib

/-
Verification development for the per-basic-block instruction reordering pass
found in third_party/move/move-compiler-v2/src/pipeline/instruction_reordering.rs.

The Rust data types and functions are shallowly embedded as executable Lean
definitions.  Machine integers (CodeOffset = u16, TempIndex = usize) are
modelled as Nat: block lengths are capped at 128 by the pass itself, so no
arithmetic here can overflow the source types.  The B-tree containers are
modelled extensionally by lists:
  - a set `BTreeSet<T>` becomes a list queried through `contains` (inserting
    an element that is already present is harmless for every query made);
  - `BTreeMap<CodeOffset, Vec<..>>` maps become association lists with
    distinct keys, looked up with `find?`;
  - maps that are iterated in ascending key order (the `uses` map) are
    recovered by sorting the recorded insertions.
Rust names are kept, except that OrderingAnnotation / PrepareUseAnnotation
are shortened to OrderingAnnot / PrepareUseAnnot in comments and field names.
-/

namespace InstrReorder

/-- Operation kind of a `Call` instruction.  Only the operations inspected by
the reordering pass are distinguished; every other operation is `OtherOp c`
where `c` records the result of `Operation::can_abort`.  The named operations
(`Prepare`, `WriteRef`, `ReadRef`, `FreezeRef`, `Drop`, `BorrowLoc`) cannot
abort. -/
inductive Operation where
  | Prepare : Operation
  | WriteRef : Operation
  | ReadRef : Operation
  | FreezeRef : Operation
  | Drop : Operation
  | BorrowLoc : Operation
  | OtherOp : Bool → Operation
deriving DecidableEq, Repr

/-- Mirrors `Operation::can_abort`. -/
def Operation.can_abort : Operation → Bool
  | .OtherOp c => c
  | _ => false

/-- Stackless bytecode instruction, restricted to the fields the reordering
pass observes: the attribute id, the source and destination temporaries, and
the constructor discriminators it matches on.  The final `Bool` of `Call`
records whether the `Option<AbortAction>` field is `Some` (the
multi-return-opaque marker checked by the per-block skip).  `SpecOnly` stands
for the spec-only constructors (`Prop`, `SaveMem`, `SaveSpecVar`) for which
`Bytecode::is_spec_only` returns true. -/
inductive Bytecode where
  | Assign : Nat → Nat → Nat → Bytecode
  | Call : Nat → List Nat → Operation → List Nat → Bool → Bytecode
  | Ret : Nat → List Nat → Bytecode
  | Load : Nat → Nat → Bytecode
  | Branch : Nat → Nat → Nat → Nat → Bytecode
  | Jump : Nat → Nat → Bytecode
  | Label : Nat → Nat → Bytecode
  | Abort : Nat → Nat → Bytecode
  | Nop : Nat → Bytecode
  | SpecBlock : Nat → Bytecode
  | SpecOnly : Nat → Bytecode
deriving DecidableEq, Repr

/-- Mirrors `Bytecode::sources`: the ordered list of source temporaries. -/
def Bytecode.sources : Bytecode → List Nat
  | .Assign _ _ src => [src]
  | .Call _ _ _ srcs _ => srcs
  | .Ret _ srcs => srcs
  | .Branch _ _ _ cond => [cond]
  | .Abort _ src => [src]
  | _ => []

/-- Mirrors `Bytecode::dests`: the list of destination temporaries. -/
def Bytecode.dests : Bytecode → List Nat
  | .Assign _ dst _ => [dst]
  | .Call _ dsts _ _ _ => dsts
  | .Load _ dst => [dst]
  | _ => []

/-- Mirrors `Bytecode::get_attr_id`. -/
def Bytecode.get_attr_id : Bytecode → Nat
  | .Assign a _ _ => a
  | .Call a _ _ _ _ => a
  | .Ret a _ => a
  | .Load a _ => a
  | .Branch a _ _ _ => a
  | .Jump a _ => a
  | .Label a _ => a
  | .Abort a _ => a
  | .Nop a => a
  | .SpecBlock a => a
  | .SpecOnly a => a

/-- Mirrors `Bytecode::is_spec_only`. -/
def Bytecode.is_spec_only : Bytecode → Bool
  | .SpecOnly _ => true
  | _ => false

/-- Discriminator for `matches!(instr, Bytecode::SpecBlock(..))`. -/
def Bytecode.isSpecBlock : Bytecode → Bool
  | .SpecBlock _ => true
  | _ => false

/-- Discriminator for `matches!(instr, Bytecode::Call(_, _, _, _, Some(_)))`. -/
def Bytecode.hasAbortAction : Bytecode → Bool
  | .Call _ _ _ _ m => m
  | _ => false

/-- Discriminator for `matches!(instr, Bytecode::Assign(..))`. -/
def Bytecode.isAssign : Bytecode → Bool
  | .Assign _ _ _ => true
  | _ => false

/-- Discriminator for `matches!(instr, Bytecode::Call(_, _, Operation::Prepare, ..))`. -/
def Bytecode.isPrepareCall : Bytecode → Bool
  | .Call _ _ .Prepare _ _ => true
  | _ => false

/-- Default instruction used at the (always in-bounds) `Vec` indexing sites. -/
def defaultInstr : Bytecode := .Nop 0

/-- Mirrors `InstructionReordering::is_relatively_non_reorderable`. -/
def isRelativelyNonReorderable : Bytecode → Bool
  | .Ret _ _ => true
  | .Branch _ _ _ _ => true
  | .Jump _ _ => true
  | .Label _ _ => true
  | .Abort _ _ => true
  | .Call _ _ op _ _ =>
      op.can_abort ||
        (match op with
          | .WriteRef => true
          | .ReadRef => true
          | .FreezeRef => true
          | .Drop => true
          | _ => false)
  | _ => false

/-!  Use-def graph representation: `BTreeMap<CodeOffset, Vec<Option<CodeOffset>>>`
as an association list with distinct keys. -/

abbrev UseDefGraph := List (Nat × List (Option Nat))

/-- Lookup of a use-def graph entry (`graph.get(&o)`). -/
def graphGet (g : UseDefGraph) (o : Nat) : Option (List (Option Nat)) :=
  (g.find? (fun ent => ent.1 = o)).map Prod.snd

/-- Slot update `graph.get_mut(&uo).unwrap()[pos] = Some(p)`. -/
def updateSlot (g : UseDefGraph) (uo pos p : Nat) : UseDefGraph :=
  g.map (fun ent => if ent.1 = uo then (ent.1, ent.2.set pos (some p)) else ent)

/-- Lookup in a `BTreeMap<TempIndex, CodeOffset>` modelled as a cons-front
association list (the head is the most recent insertion). -/
def lwGet (lw : List (Nat × Nat)) (t : Nat) : Option Nat :=
  (lw.find? (fun e => e.1 = t)).map Prod.snd

/-!  Forward use-def walk (first loop of `ordered_edge_data_dependence_graph`).
The `uses` B-tree map is iterated later (phase B), so the walk records the raw
insertion events in a list; `usesGroups` below recovers the ascending-key
iteration order of
`BTreeMap<(TempIndex, Option<CodeOffset>), BTreeSet<(CodeOffset, usize)>>`. -/

structure WalkState where
  latestWrite : List (Nat × Nat)
  usesList : List ((Nat × Option Nat) × (Nat × Nat))
  graph : UseDefGraph
deriving Repr

def initWalkState : WalkState := ⟨[], [], []⟩

/-- One iteration of the forward walk at `(offset, instr)`.  Sources are
resolved against `latestWrite` before the destinations update it, exactly as
in the source (the sources loop precedes the dests loop). -/
def walkStep (st : WalkState) (oi : Nat × Bytecode) : WalkState :=
  if oi.2.sources.isEmpty then
    { st with latestWrite := oi.2.dests.foldl (fun lw t => (t, oi.1) :: lw) st.latestWrite }
  else
    { latestWrite := oi.2.dests.foldl (fun lw t => (t, oi.1) :: lw) st.latestWrite,
      graph := st.graph ++ [(oi.1, oi.2.sources.map (lwGet st.latestWrite))],
      usesList := st.usesList ++ oi.2.sources.enum.map
        (fun pi => ((pi.2, lwGet st.latestWrite pi.2), (oi.1, pi.1))) }

def walk (block : List Bytecode) : WalkState :=
  block.enum.foldl walkStep initWalkState

/-!  The model of Rust `sort_by` / `sort_by_key`.  For slices short enough to
fall into the standard library's insertion-sort fast path (the pre-1.81
`merge_sort` insertion-sorts slices of at most 20 elements; the current
driftsort insertion-sorts below its small-slice threshold) the library
performs exactly the insertion sort below: each element is shifted left past
every already-placed element `e` for which `is_less(x, e)` holds, and settles
at the first `e`, scanning from the right, for which it does not
(`insertion_sort_shift_left`).  For longer slices the library switches to
merging strategies; those coincide with this model whenever the comparator is
consistent, because both are stable sorts, and under an inconsistent
comparator on a long slice the library documents the resulting order as
unspecified. -/

def insertShift (lt : α → α → Bool) (x : α) : List α → List α
  | [] => [x]
  | e :: rest => if lt x e then e :: insertShift lt x rest else x :: e :: rest

/-- Insertion sort under a strict `is_less` comparator, taking elements left
to right; the accumulator holds the sorted prefix reversed, so `insertShift`
scans the prefix from its right end, exactly as the Rust insertion sort. -/
def stableSort (lt : α → α → Bool) (l : List α) : List α :=
  (l.foldl (fun racc x => insertShift lt x racc) []).reverse

/-- Strict ascending order on the keys `(TempIndex, Option<CodeOffset>)` of
the `uses` B-tree map (`None < Some`, as for Rust Option). -/
def optLt : Option Nat → Option Nat → Bool
  | none, some _ => true
  | some a, some b => a < b
  | _, _ => false

def keyLt (a b : Nat × Option Nat) : Bool :=
  a.1 < b.1 || (a.1 = b.1 && optLt a.2 b.2)

def pairLt (a b : Nat × Nat) : Bool :=
  a.1 < b.1 || (a.1 = b.1 && a.2 < b.2)

/-- Iteration order of the `uses` map: distinct keys ascending, and for each
key its `BTreeSet` of `(use offset, source position)` pairs ascending. -/
def usesGroups (w : WalkState) : List ((Nat × Option Nat) × List (Nat × Nat)) :=
  (stableSort keyLt (w.usesList.map Prod.fst).dedup).map (fun k =>
    (k, stableSort pairLt ((w.usesList.filter (fun e => e.1 = k)).map Prod.snd).dedup))

/-!  `Prepare` synthesis (second and third loops of
`ordered_edge_data_dependence_graph`). -/

structure SynthState where
  graph : UseDefGraph
  preps : List Bytecode
  prepEdges : List (Nat × Nat)
  pum : List (Nat × Nat × Nat × Bool)
deriving Repr

/-- Mirrors the construction of a `Prepare` pseudo-instruction. -/
def mkPrepare (attr tmp : Nat) : Bytecode :=
  .Call attr [] .Prepare [tmp] false

/-- Phase A (per-use preparation) at use offset `uo`.  The inner Rust loop
walks `defs.iter_mut().zip(sources).take(without_last_len).enumerate()`;
each iteration reads and writes only its own slot `pos`, so it is rendered
as a fold over the slot positions that re-reads the graph entry. -/
def phaseAslot (block : List Bytecode) (uo : Nat) (s : SynthState) (pos : Nat) : SynthState :=
  match ((graphGet s.graph uo).getD []).getD pos none with
  | none =>
    { s with
      preps := s.preps ++
        [mkPrepare (block.getD uo defaultInstr).get_attr_id
          ((block.getD uo defaultInstr).sources.getD pos 0)],
      graph := updateSlot s.graph uo pos (block.length + s.preps.length),
      pum := s.pum ++ [(block.length + s.preps.length, uo, pos, false)] }
  | some d =>
    if (block.getD d defaultInstr).isAssign then
      { s with
        preps := s.preps ++
          [mkPrepare (block.getD uo defaultInstr).get_attr_id
            ((block.getD uo defaultInstr).sources.getD pos 0)],
        prepEdges := s.prepEdges ++ [(block.length + s.preps.length, d)],
        graph := updateSlot s.graph uo pos (block.length + s.preps.length),
        pum := s.pum ++ [(block.length + s.preps.length, uo, pos, false)] }
    else s

def phaseAuse (block : List Bytecode) (st : SynthState) (uo : Nat) : SynthState :=
  if (block.getD uo defaultInstr).sources.length < 2 then st
  else
    match graphGet st.graph uo with
    | none => st
    | some defs0 =>
      (List.range (min (if defs0.isEmpty then 0 else defs0.length - 1)
          (min defs0.length (block.getD uo defaultInstr).sources.length))).foldl
        (phaseAslot block uo) st

def phaseA (block : List Bytecode) (st : SynthState) : SynthState :=
  (List.range block.length).foldl (phaseAuse block) st

/-- Phase B (multi-use marking) for one `(use offset, position)` pair of a
multiply-used definition of temporary `tmp`. -/
def phaseBpair (block : List Bytecode) (tmp : Nat) (st : SynthState) (pr : Nat × Nat) :
    SynthState :=
  if (block.getD pr.1 defaultInstr).sources.isEmpty ||
      pr.2 = (block.getD pr.1 defaultInstr).sources.length - 1 then st
  else
    match graphGet st.graph pr.1 with
    | none => st
    | some defs =>
      match defs.getD pr.2 none with
      | none => st
      | some d =>
        if block.length ≤ d then
          { st with
            pum := st.pum.map (fun e => if e.1 = d then (e.1, e.2.1, e.2.2.1, true) else e) }
        else
          { st with
            preps := st.preps ++ [mkPrepare (block.getD pr.1 defaultInstr).get_attr_id tmp],
            prepEdges := st.prepEdges ++ [(block.length + st.preps.length, d)],
            graph := updateSlot st.graph pr.1 pr.2 (block.length + st.preps.length),
            pum := st.pum ++ [(block.length + st.preps.length, pr.1, pr.2, true)] }

def phaseB (block : List Bytecode) (w : WalkState) (st : SynthState) : SynthState :=
  (usesGroups w).foldl
    (fun s kv => if 1 < kv.2.length then kv.2.foldl (phaseBpair block kv.1.1) s else s)
    st

/-- Application of the deferred `prepare_edges`: each `Prepare` offset gets a
fresh graph entry holding the offset of the definition it depends on
(`graph.entry(prepare_offset).or_default().push(Some(def_offset))`; the
`Prepare` offsets never carry a prior entry). -/
def applyPrepEdges (g : UseDefGraph) (edges : List (Nat × Nat)) : UseDefGraph :=
  g ++ edges.map (fun pd => (pd.1, [some pd.2]))

/-- Mirrors `InstructionReordering::ordered_edge_data_dependence_graph`:
returns the block extended with the synthesized `Prepare` instructions, the
final use-def graph, and the prepare-use map (as a list of
`(prepare offset, use offset, source position, multi-use)` entries whose keys
ascend in creation order). -/
def synthA (block : List Bytecode) : SynthState :=
  phaseA block ⟨(walk block).graph, [], [], []⟩

def synthB (block : List Bytecode) : SynthState :=
  phaseB block (walk block) (synthA block)

def orderedEdgeDataDependenceGraph (block : List Bytecode) :
    List Bytecode × UseDefGraph × List (Nat × Nat × Nat × Bool) :=
  (block ++ (synthB block).preps,
   applyPrepEdges (synthB block).graph (synthB block).prepEdges,
   (synthB block).pum)

/-!  Dependence constraints (`DependenceConstraints`).  The edge map
`BTreeMap<CodeOffset, BTreeSet<CodeOffset>>` is modelled extensionally as a
list of pairs queried through `contains`. -/

abbrev EdgeSet := List (Nat × Nat)

structure DependenceConstraints where
  edges : EdgeSet
  num_nodes : Nat
deriving Repr

def initConstraints : DependenceConstraints := ⟨[], 0⟩

/-- Set insertion `edges.entry(a).or_default().insert(b)`. -/
def insertEdge (e : EdgeSet) (a b : Nat) : EdgeSet := (a, b) :: e

structure FalseDepState where
  readsBefore : List (Nat × Nat)
  latestWrite : List (Nat × Nat)
  edges : EdgeSet
deriving Repr

/-- Write-after-read edges from the drained prior readers of `t`. -/
def falseDepDrainEdges (offset : Nat) (s : FalseDepState) (t : Nat) : EdgeSet :=
  (((s.readsBefore.filter (fun e => e.1 = t)).map Prod.snd).filter (fun x => x ≠ offset)).foldl
    (fun e x => insertEdge e x offset) s.edges

/-- Destination handling of one instruction in the false-dependence walk:
drain the prior readers of `t` (write-after-read edges), then replace the
latest write (write-after-write edge; the previous writer is read off before
the insertion, exactly as `latest_write.insert` returns it). -/
def falseDepDest (offset : Nat) (s : FalseDepState) (t : Nat) : FalseDepState :=
  { readsBefore := s.readsBefore.filter (fun e => e.1 ≠ t),
    latestWrite := (t, offset) :: s.latestWrite,
    edges :=
      match lwGet s.latestWrite t with
      | some node =>
        if node = offset then falseDepDrainEdges offset s t
        else insertEdge (falseDepDrainEdges offset s t) node offset
      | none => falseDepDrainEdges offset s t }

def falseDepStep (s : FalseDepState) (oi : Nat × Bytecode) : FalseDepState :=
  oi.2.dests.foldl (falseDepDest oi.1)
    { s with readsBefore := s.readsBefore ++ oi.2.sources.map (fun t => (t, oi.1)) }

/-- Mirrors `DependenceConstraints::add_false_dependencies`; the walk stops at
the first `Prepare` instruction (they form the block suffix). -/
def add_false_dependencies (c : DependenceConstraints) (block : List Bytecode) :
    DependenceConstraints :=
  { edges := ((block.enum.takeWhile (fun oi => !oi.2.isPrepareCall)).foldl
      falseDepStep ⟨[], [], c.edges⟩).edges,
    num_nodes := block.length }

/-- Mirrors `DependenceConstraints::add_true_dependencies`: an edge from every
`Some` slot of a use-def entry to the entry key. -/
def add_true_dependencies (c : DependenceConstraints) (graph : UseDefGraph) :
    DependenceConstraints :=
  { c with
    edges := graph.foldl
      (fun e ent => (ent.2.filterMap id).foldl (fun e d => insertEdge e d ent.1) e)
      c.edges }

/-- Mirrors `DependenceConstraints::is_ref_arg_instr`.  `target t` answers
whether the declared type of temporary `t` is a mutable reference.  The
`dsts[0]` index of the source is in bounds for every well-formed `BorrowLoc`. -/
def is_ref_arg_instr (target : Nat → Bool) (instr : Bytecode) : Bool :=
  match instr with
  | .Call _ _ .FreezeRef _ _ => true
  | .Call _ dsts .BorrowLoc _ _ => target (dsts.getD 0 0)
  | _ => false

structure RefArgState where
  reads : List (Nat × Nat)
  refArgs : List (Nat × Nat)
  edges : EdgeSet
deriving Repr

/-- Edges from the drained prior ordinary readers of `src`. -/
def refArgDrainEdges (offset : Nat) (s : RefArgState) (src : Nat) : EdgeSet :=
  ((s.reads.filter (fun e => e.1 = src)).map Prod.snd).foldl
    (fun e x => insertEdge e x offset) s.edges

def refArgProducerSrc (offset : Nat) (s : RefArgState) (src : Nat) : RefArgState :=
  { reads := s.reads.filter (fun e => e.1 ≠ src),
    refArgs := (src, offset) :: s.refArgs,
    edges :=
      match lwGet s.refArgs src with
      | some p => insertEdge (refArgDrainEdges offset s src) p offset
      | none => refArgDrainEdges offset s src }

def refArgOtherSrc (offset : Nat) (s : RefArgState) (src : Nat) : RefArgState :=
  { reads := s.reads ++ [(src, offset)],
    refArgs := s.refArgs,
    edges :=
      match lwGet s.refArgs src with
      | some p => insertEdge s.edges p offset
      | none => s.edges }

def refArgStep (target : Nat → Bool) (s : RefArgState) (oi : Nat × Bytecode) : RefArgState :=
  if is_ref_arg_instr target oi.2 then
    oi.2.sources.foldl (refArgProducerSrc oi.1) s
  else
    oi.2.sources.foldl (refArgOtherSrc oi.1) s

/-- Mirrors `DependenceConstraints::add_ref_arg_dependencies`. -/
def add_ref_arg_dependencies (c : DependenceConstraints) (block : List Bytecode)
    (target : Nat → Bool) : DependenceConstraints :=
  { c with edges := (block.enum.foldl (refArgStep target) ⟨[], [], c.edges⟩).edges }

/-- Mirrors `DependenceConstraints::add_relatively_non_reorderable_dependencies`. -/
def relNonReorderableStep (acc : Option Nat × EdgeSet) (oi : Nat × Bytecode) :
    Option Nat × EdgeSet :=
  if isRelativelyNonReorderable oi.2 then
    match acc.1 with
    | some prev => (some oi.1, insertEdge acc.2 prev oi.1)
    | none => (some oi.1, acc.2)
  else acc

def add_relatively_non_reorderable_dependencies (c : DependenceConstraints)
    (block : List Bytecode) : DependenceConstraints :=
  { c with edges := (block.enum.foldl relNonReorderableStep (none, c.edges)).2 }

/-- Mirrors `DependenceConstraints::make_transitively_closed` (Floyd-Warshall
triple loop; updates made for one `k` are visible to later iterations exactly
as in the in-place Rust loop). -/
def make_transitively_closed (c : DependenceConstraints) : DependenceConstraints :=
  { c with
    edges := (List.range c.num_nodes).foldl
      (fun e k => (List.range c.num_nodes).foldl
        (fun e i => (List.range c.num_nodes).foldl
          (fun e j => if e.contains (i, k) && e.contains (k, j) then insertEdge e i j else e)
          e)
        e)
      c.edges }

/-!  DFS post-order numbering. -/

structure DfsState where
  visited : List Nat
  rows : List (List (Option Nat))
  num : Nat
deriving Repr

/-- Mirrors `InstructionReordering::dfs_recurse`.  The extra fuel argument
bounds the recursion depth; every node on a recursion path is distinct and
drawn from the keys and targets of the use-def graph, so fuel `n + 1` (with
`n` the block length) never runs out on graphs produced by the pass. -/
def dfsRecurse (graph : UseDefGraph) :
    Nat → Nat → DfsState → DfsState
  | 0, _, st => st
  | fuel + 1, node, st =>
    if st.visited.contains node then st
    else
      let st1 : DfsState := { st with visited := node :: st.visited }
      let deps := ((graphGet graph node).getD []).filterMap id
      let st2 := deps.foldl (fun s d => dfsRecurse graph fuel d s) st1
      { st2 with
        rows := st2.rows.set node ((st2.rows.getD node []) ++ [some st2.num]),
        num := st2.num + 1 }

/-- Seed handling in `dfs_post_order_numbering`: run the DFS from `offset`
and pad the shorter rows with `None`. -/
def dfsRunStep (graph : UseDefGraph) (n : Nat) (acc : List Nat × List (List (Option Nat)))
    (oi : Nat × Bytecode) : List Nat × List (List (Option Nat)) :=
  if !acc.1.contains oi.1 && isRelativelyNonReorderable oi.2 && !oi.2.sources.isEmpty then
    (acc.1 ++ (dfsRecurse graph (n + 1) oi.1 ⟨[], acc.2, 0⟩).visited,
     (dfsRecurse graph (n + 1) oi.1 ⟨[], acc.2, 0⟩).rows.map
       (fun r =>
         if r.length <
             ((dfsRecurse graph (n + 1) oi.1 ⟨[], acc.2, 0⟩).rows.getD oi.1 []).length then
           r ++ [none]
         else r))
  else acc

/-- Mirrors `InstructionReordering::dfs_post_order_numbering`: one DFS run per
still-unvisited relatively-non-reorderable instruction with sources, seeds
taken from the end of the block backwards, each run followed by `None`
padding to realign the rows. -/
def dfs_post_order_numbering (block : List Bytecode) (graph : UseDefGraph) :
    List (List (Option Nat)) :=
  (block.enum.reverse.foldl (dfsRunStep graph block.length)
    ([], List.replicate block.length [])).2

/-!  Total-order selection (`OrderingConstraints::get_ordered_instr_indices`). -/

def optCompare : Option Nat → Option Nat → Ordering
  | none, none => .eq
  | none, some _ => .lt
  | some _, none => .gt
  | some a, some b => compare a b

def vecCompare : List (Option Nat) → List (Option Nat) → Ordering
  | [], [] => .eq
  | [], _ :: _ => .lt
  | _ :: _, [] => .gt
  | a :: xs, b :: ys => (optCompare a b).then (vecCompare xs ys)

/-- First zipped column in which both numbering vectors hold `Some`. -/
def firstBothSome : List (Option Nat) → List (Option Nat) → Option (Nat × Nat)
  | some a :: _, some b :: _ => some (a, b)
  | _ :: xs, _ :: ys => firstBothSome xs ys
  | _, _ => none

/-- The comparator of `get_ordered_instr_indices`: dependence edges dominate,
then the first doubly-defined DFS column, then lexicographic comparison of the
numbering vectors, then the original offset. -/
def cmpOffsets (deps : EdgeSet) (dfs : List (List (Option Nat))) (a b : Nat) :
    Ordering :=
  if deps.contains (a, b) then .lt
  else if deps.contains (b, a) then .gt
  else
    match firstBothSome (dfs.getD a []) (dfs.getD b []) with
    | some nm => compare nm.1 nm.2
    | none => (vecCompare (dfs.getD a []) (dfs.getD b [])).then (compare a b)

/-- The strict `is_less` predicate the sort queries: `compare(a, b) == Less`. -/
def cmpLt (deps : EdgeSet) (dfs : List (List (Option Nat))) (a b : Nat) : Bool :=
  match cmpOffsets deps dfs a b with
  | .lt => true
  | _ => false

/-- Mirrors `OrderingConstraints::get_ordered_instr_indices`: a `sort_by` of
`[0, N)` under the comparator, modelled by `stableSort`. -/
def get_ordered_instr_indices (deps : EdgeSet) (dfs : List (List (Option Nat))) :
    List Nat :=
  stableSort (cmpLt deps dfs) (List.range dfs.length)

/-!  The per-block pipeline. -/

structure OrderInfo where
  dependencies : List Nat
  dfs_numberings : List (Option Nat)
deriving DecidableEq, Repr

structure ReorderedBlock where
  block : List Bytecode
  ordering : List (Nat × OrderInfo)
  touch_use : List (Nat × Nat × Nat × Bool)
deriving DecidableEq, Repr

/-- The per-block skip of `optimize_block_for_stack_machine`: length over 128,
spec-only content, a `SpecBlock`, or a call with the `Some(..)` abort-action
(multi-return-opaque) marker. -/
def skipBlock (block : List Bytecode) : Bool :=
  decide (128 < block.length) ||
    block.any (fun instr => instr.is_spec_only || instr.isSpecBlock || instr.hasAbortAction)

/-- Mirrors the `index_remapping` construction: start from `vec![0; len]` and
set `index_remapping[reordered_indices[i]] = i`. -/
def computeIndexRemapping (order : List Nat) : List Nat :=
  order.enum.foldl (fun acc ir => acc.set ir.2 ir.1) (List.replicate order.length 0)

/-- The dependence-constraint pipeline of `optimize_block_for_stack_machine`
(the four families, then the transitive closure), on the post-synthesis block. -/
def buildConstraints (newBlock : List Bytecode) (graph : UseDefGraph)
    (target : Nat → Bool) : DependenceConstraints :=
  make_transitively_closed
    (add_relatively_non_reorderable_dependencies
      (add_ref_arg_dependencies
        (add_true_dependencies (add_false_dependencies initConstraints newBlock) graph)
        newBlock target)
      newBlock)

/-- The pre-closure union of the four dependence families (the dependence
graph before `make_transitively_closed`). -/
def preClosureConstraints (newBlock : List Bytecode) (graph : UseDefGraph)
    (target : Nat → Bool) : DependenceConstraints :=
  add_relatively_non_reorderable_dependencies
    (add_ref_arg_dependencies
      (add_true_dependencies (add_false_dependencies initConstraints newBlock) graph)
      newBlock target)
    newBlock

/-!  The locals of `optimize_block_for_stack_machine`, one named definition
per Rust binding. -/

/-- The `new_block` local: the block after `Prepare` synthesis. -/
def newBlockOf (block : List Bytecode) : List Bytecode :=
  (orderedEdgeDataDependenceGraph block).1

/-- The final per-block use-def graph. -/
def useDefGraphOf (block : List Bytecode) : UseDefGraph :=
  (orderedEdgeDataDependenceGraph block).2.1

/-- The `prepare_use_map` local (before remapping). -/
def prepareUseMapOf (block : List Bytecode) : List (Nat × Nat × Nat × Bool) :=
  (orderedEdgeDataDependenceGraph block).2.2

/-- The `dependencies` local: the closed dependence constraints. -/
def depsOf (block : List Bytecode) (target : Nat → Bool) : DependenceConstraints :=
  buildConstraints (newBlockOf block) (useDefGraphOf block) target

/-- The `dfs_numberings` local. -/
def dfsOf (block : List Bytecode) : List (List (Option Nat)) :=
  dfs_post_order_numbering (newBlockOf block) (useDefGraphOf block)

/-- The `reordered_indices` local. -/
def orderOf (block : List Bytecode) (target : Nat → Bool) : List Nat :=
  get_ordered_instr_indices (depsOf block target).edges (dfsOf block)

/-- The `index_remapping` local. -/
def remapOf (block : List Bytecode) (target : Nat → Bool) : List Nat :=
  computeIndexRemapping (orderOf block target)

/-- The `reordered_block` local. -/
def reorderedOf (block : List Bytecode) (target : Nat → Bool) : List Bytecode :=
  (orderOf block target).map (fun v => (newBlockOf block).getD v defaultInstr)

/-- The remapped `prepare_use_map` local. -/
def touchUseOf (block : List Bytecode) (target : Nat → Bool) :
    List (Nat × Nat × Nat × Bool) :=
  (prepareUseMapOf block).map
    (fun e => ((remapOf block target).getD e.1 0,
      (remapOf block target).getD e.2.1 0, e.2.2.1, e.2.2.2))

/-- The result of `remap_and_convert_to_annot`: one `OrderInfo` per offset of
the post-synthesis block, keyed by the remapped offset. -/
def orderingOf (block : List Bytecode) (target : Nat → Bool) : List (Nat × OrderInfo) :=
  (List.range (newBlockOf block).length).map
    (fun o => ((remapOf block target).getD o 0,
      OrderInfo.mk
        ((List.range (depsOf block target).num_nodes).filter
          (fun j => (depsOf block target).edges.contains (o, j)))
        ((dfsOf block).getD o [])))

/-- Mirrors `InstructionReordering::optimize_block_for_stack_machine` on the
block slice `new_block`; `target t` tells whether temporary `t` has mutable
reference type. -/
def optimize_block_for_stack_machine (block : List Bytecode) (target : Nat → Bool) :
    ReorderedBlock :=
  if skipBlock block then ⟨block, [], []⟩
  else ⟨reorderedOf block target, orderingOf block target, touchUseOf block target⟩

/-!  Function-level driver. -/

structure ReorderedFunction where
  code : List Bytecode
  ordering : List (Nat × OrderInfo)
  touch_use : List (Nat × Nat × Nat × Bool)
deriving DecidableEq, Repr

/-- The inclusive slice `code[lower ..= upper]`. -/
def sliceBlock (code : List Bytecode) (lower upper : Nat) : List Bytecode :=
  (code.drop lower).take (upper + 1 - lower)

/-- Concatenation step of the driver: rebase the per-block annotation keys by
the length of the already-emitted code (the `new_lower` local). -/
def appendReorderedBlock (acc : ReorderedFunction) (rb : ReorderedBlock) :
    ReorderedFunction :=
  { code := acc.code ++ rb.block,
    ordering := acc.ordering ++ rb.ordering.map (fun e => (acc.code.length + e.1, e.2)),
    touch_use := acc.touch_use ++ rb.touch_use.map
      (fun e => (acc.code.length + e.1, acc.code.length + e.2.1, e.2.2.1, e.2.2.2)) }

/-- Mirrors `InstructionReordering::compute_reordered_instructions`.  CFG
construction is outside the excerpt; the basic-block offset ranges are taken
as a parameter and sorted by lower offset as in the source. -/
def compute_reordered_instructions (code : List Bytecode) (ranges : List (Nat × Nat))
    (target : Nat → Bool) : Option ReorderedFunction :=
  if code.any (fun i => i.is_spec_only) then none
  else
    some ((stableSort (fun a b => a.1 < b.1) ranges).foldl
      (fun acc r =>
        appendReorderedBlock acc
          (optimize_block_for_stack_machine (sliceBlock code r.1 r.2) target))
      ⟨[], [], []⟩)

/-- Mirrors `InstructionReorderingProcessor::process` at the level of the
function body: native functions and functions for which
`compute_reordered_instructions` returns `None` keep their code unchanged. -/
def processFunction (isNative : Bool) (code : List Bytecode) (ranges : List (Nat × Nat))
    (target : Nat → Bool) : List Bytecode :=
  if isNative then code
  else
    match compute_reordered_instructions code ranges target with
    | some rf => rf.code
    | none => code

/-!  Spec-side definitions used to state the claims. -/

/-- The latest in-block write to `tmp` strictly before offset `o` (the value
the forward walk is specified to record in each use slot). -/
def latestWriteBefore (block : List Bytecode) (o tmp : Nat) : Option Nat :=
  ((List.range o).filter (fun j => (block.getD j defaultInstr).dests.contains tmp)).getLast?

/-- The source temporary at position `pos` of the instruction at offset `u`. -/
def srcAt (block : List Bytecode) (u pos : Nat) : Nat :=
  (block.getD u defaultInstr).sources.getD pos 0

/-- The distinct `(use offset, source position)` pairs recorded in the `uses`
index under a given `(temporary, defining offset)` key. -/
def usesPairs (block : List Bytecode) (key : Nat × Option Nat) : List (Nat × Nat) :=
  (((walk block).usesList.filter (fun e => e.1 = key)).map Prod.snd).dedup

/-- The `uses` key a `(use, pos)` slot was recorded under. -/
def useKey (block : List Bytecode) (u pos : Nat) : Nat × Option Nat :=
  (srcAt block u pos, latestWriteBefore block u (srcAt block u pos))

/-- The definition feeding `(u, pos)` has more than one recorded use. -/
def multiUseSlot (block : List Bytecode) (u pos : Nat) : Prop :=
  1 < (usesPairs block (useKey block u pos)).length

/-- The conditions under which a `(use, non-last source position)` slot
requires a `Prepare` (the three synthesis cases of the source): the value
enters the block from outside, or its definer is an `Assign`, or its
definition is used more than once. -/
def requiresPreparation (block : List Bytecode) (u pos : Nat) : Prop :=
  u < block.length ∧ pos + 1 < (block.getD u defaultInstr).sources.length ∧
    (latestWriteBefore block u (srcAt block u pos) = none ∨
     (∃ d, latestWriteBefore block u (srcAt block u pos) = some d ∧
        (block.getD d defaultInstr).isAssign = true) ∨
     multiUseSlot block u pos)

/-!  Concrete blocks used for counterexamples and witnesses.  Temporaries are
arbitrary distinct numbers; `OtherOp false` is any plain non-aborting
operation (an arithmetic operation, say) and `OtherOp true` any aborting
one. -/

/-- A function target on which no temporary has mutable-reference type. -/
def anyTarget : Nat → Bool := fun _ => false

/-- Target for `exCycleBlock`: temporary 13 is a mutable reference. -/
def exCycleTarget : Nat → Bool := fun t => t = 13

/-- Block whose dependence closure is cyclic: offset 0 reads temporaries 10
and 11 (both prepared), offset 1 is an `Assign` defining 11, offset 2 uses 11
and 13, and offset 3 mutably borrows 10 into 13.  The cycle runs
0 -> 1 -> P11 -> 2 -> 3 -> P10 -> 0 through the two synthesized Prepares. -/
def exCycleBlock : List Bytecode :=
  [ .Call 0 [14] (.OtherOp false) [10, 11] false,
    .Assign 1 11 12,
    .Call 2 [15] (.OtherOp false) [11, 13] false,
    .Call 3 [13] .BorrowLoc [10] false ]

/-- Two uses of the outside temporary 20: in a non-last position at offset 0
and in a last position at offset 1. -/
def exTwoUseBlock : List Bytecode :=
  [ .Call 0 [23] (.OtherOp false) [20, 21] false,
    .Call 1 [24] (.OtherOp false) [22, 20] false ]

/-- A single binary operation whose two sources come from outside. -/
def exAddBlock : List Bytecode :=
  [ .Call 7 [32] (.OtherOp false) [30, 31] false ]

/-- A block that already consists of a single `Prepare` instruction. -/
def exPrepBlock : List Bytecode :=
  [ .Call 5 [] .Prepare [40] false ]

/-- A definition followed by an aborting use, seeding one DFS run. -/
def exSeedBlock : List Bytecode :=
  [ .Call 0 [3] (.OtherOp false) [4] false,
    .Call 1 [] (.OtherOp true) [3] false ]

/-- A block containing a `SpecBlock`, triggering the per-block skip. -/
def exSkipBlock : List Bytecode :=
  [ .SpecBlock 0 ]

/-- A use of two outside temporaries followed by an unrelated `Assign`.
Synthesis appends a `Prepare` for temporary 50 at post-synthesis offset 2;
no instruction is relatively non-reorderable, so there is no DFS run and
every numbering row is empty.  The only dependence edge is the
true-dependence edge from the `Prepare` to its use. -/
def exLatePrepBlock : List Bytecode :=
  [ .Call 0 [60] (.OtherOp false) [50, 51] false,
    .Assign 1 70 71 ]

end InstrReorder

namespace InstrReorder

/-- The graph slot of source position `pos` of the instruction at `u`. -/
def slotOf (g : UseDefGraph) (u pos : Nat) : Option Nat :=
  ((graphGet g u).getD []).getD pos none

/-- The slot value recorded by the forward walk, before any synthesis. -/
def walkSlot (block : List Bytecode) (u pos : Nat) : Option Nat :=
  slotOf (walk block).graph u pos

/-- The phase-A synthesis condition at a slot: the value enters the block
from outside, or its definer is an `Assign`. -/
def needsA (block : List Bytecode) (u pos : Nat) : Prop :=
  walkSlot block u pos = none ∨
  ∃ d, walkSlot block u pos = some d ∧ (block.getD d defaultInstr).isAssign = true

/-- Invariant carried by the synthesis state through phases A and B: the
prepare-use map is keyed consecutively from the block length in creation
order; each entry's graph slot holds its key; each entry names an in-block
use at a non-last source position whose slot requires preparation; every
slot either belongs to an entry or still holds its walk value; the graph
keys and entry lengths are those of the walk; and every slot value is below
the next free prepare offset. -/
def SynthInv (block : List Bytecode) (s : SynthState) : Prop :=
  (s.pum.map (fun e => e.1) = List.range' block.length s.preps.length) ∧
  (∀ e ∈ s.pum, slotOf s.graph e.2.1 e.2.2.1 = some e.1) ∧
  (∀ e ∈ s.pum, e.2.1 < block.length ∧
    e.2.2.1 + 1 < (block.getD e.2.1 defaultInstr).sources.length ∧
    (needsA block e.2.1 e.2.2.1 ∨ multiUseSlot block e.2.1 e.2.2.1)) ∧
  (∀ u pos, (∃ e ∈ s.pum, e.2.1 = u ∧ e.2.2.1 = pos) ∨
    slotOf s.graph u pos = walkSlot block u pos) ∧
  (∀ u, (graphGet s.graph u).isSome = (graphGet (walk block).graph u).isSome) ∧
  (∀ u l, graphGet s.graph u = some l →
    l.length = (block.getD u defaultInstr).sources.length) ∧
  (∀ u pos p, slotOf s.graph u pos = some p → p < block.length + s.preps.length)

/-- Flags recorded so far are honest: `true` only on multiply-used slots. -/
def FlagsOk (block : List Bytecode) (s : SynthState) : Prop :=
  ∀ e ∈ s.pum, e.2.2.2 = true → multiUseSlot block e.2.1 e.2.2.1

/-- Every slot phase A must prepare already has a prepare-use entry. -/
def NeedsAEntries (block : List Bytecode) (s : SynthState) : Prop :=
  ∀ u pos, u < block.length →
    pos + 1 < (block.getD u defaultInstr).sources.length →
    needsA block u pos →
    ∃ e ∈ s.pum, e.2.1 = u ∧ e.2.2.1 = pos

/-- The bundled synthesis invariant. -/
def SynthAll (block : List Bytecode) (s : SynthState) : Prop :=
  SynthInv block s ∧ FlagsOk block s ∧ NeedsAEntries block s

/-- Slot bound carried through the synthesis phases: every `Some` slot of the
graph names either an earlier offset or a synthesized `Prepare` offset. -/
def SlotBound (block : List Bytecode) (g : UseDefGraph) : Prop :=
  ∀ v defs pos d, graphGet g v = some defs → defs.getD pos none = some d →
    d < v ∨ block.length ≤ d

/-- Transition relation summarising any sequence of DFS actions: the counter
grows, the visited set grows, rows of already-visited nodes are frozen, every
row either stays or receives exactly one new number drawn from the interval
swept by the counter, and rows appended in the same sweep receive distinct
numbers. -/
def DfsStep (a b : DfsState) : Prop :=
  a.num ≤ b.num ∧
  (∀ m, m ∈ a.visited → m ∈ b.visited) ∧
  (∀ m, m ∈ a.visited → b.rows.getD m [] = a.rows.getD m []) ∧
  (∀ m, b.rows.getD m [] = a.rows.getD m [] ∨
    (m ∈ b.visited ∧ ∃ k, a.num ≤ k ∧ k < b.num ∧
      b.rows.getD m [] = a.rows.getD m [] ++ [some k])) ∧
  (∀ m1 m2 k1 k2, m1 ≠ m2 →
    b.rows.getD m1 [] = a.rows.getD m1 [] ++ [some k1] →
    b.rows.getD m2 [] = a.rows.getD m2 [] ++ [some k2] → k1 ≠ k2)

/-- Alignment-and-distinctness invariant over the first `n` numbering rows. -/
def ColumnsAligned (n : Nat) (rows : List (List (Option Nat))) : Prop :=
  rows.length = n ∧
  (∃ L, ∀ m, m < n → (rows.getD m []).length = L) ∧
  (∀ col m1 m2 k1 k2, m1 < n → m2 < n → m1 ≠ m2 →
    (rows.getD m1 []).getD col none = some k1 →
    (rows.getD m2 []).getD col none = some k2 → k1 ≠ k2)

end InstrReorder

namespace InstrReorder

/-- Shifted insertion permutes the new element onto the accumulator. -/
theorem insertShift_perm (lt : α → α → Bool) (x : α) :
    ∀ acc : List α, (insertShift lt x acc).Perm (x :: acc) := by
  intro acc
  induction acc with
  | nil => exact List.Perm.refl _
  | cons e rest ih =>
    unfold insertShift
    by_cases h : lt x e
    · rw [if_pos h]
      exact (ih.cons e).trans (List.Perm.swap x e rest)
    · rw [if_neg h]

/-- The insertion fold permutes its input onto the accumulator. -/
theorem foldl_insertShift_perm (lt : α → α → Bool) :
    ∀ (l racc : List α),
      (l.foldl (fun racc x => insertShift lt x racc) racc).Perm (l ++ racc) := by
  intro l
  induction l with
  | nil => intro racc; exact List.Perm.refl _
  | cons x xs ih =>
    intro racc
    rw [List.foldl_cons]
    refine (ih (insertShift lt x racc)).trans ?_
    refine (List.Perm.append_left xs (insertShift_perm lt x racc)).trans ?_
    exact List.perm_middle

/-- Sorting permutes its input. -/
theorem stableSort_perm (lt : α → α → Bool) (l : List α) : (stableSort lt l).Perm l := by
  unfold stableSort
  refine (List.reverse_perm _).trans ?_
  simpa using foldl_insertShift_perm lt l []

/-- A list is the `getD` image of the range of its length. -/
theorem map_getD_range (l : List α) (d : α) :
    (List.range l.length).map (fun i => l.getD i d) = l := by
  apply List.ext_getElem
  · simp
  · intro i h1 h2
    simp only [List.getElem_map, List.getElem_range]
    exact List.getD_eq_getElem l d h2

theorem foldl_set_length (ps : List (Nat × Nat)) :
    ∀ acc : List Nat, (ps.foldl (fun a ir => a.set ir.2 ir.1) acc).length = acc.length := by
  induction ps with
  | nil => intro acc; rfl
  | cons p ps ih => intro acc; rw [List.foldl_cons, ih, List.length_set]

theorem foldl_set_getD_of_not_mem (ps : List (Nat × Nat)) :
    ∀ (acc : List Nat) (k : Nat), k ∉ ps.map Prod.snd →
      (ps.foldl (fun a ir => a.set ir.2 ir.1) acc).getD k 0 = acc.getD k 0 := by
  induction ps with
  | nil => intro acc k _; rfl
  | cons p ps ih =>
    intro acc k hk
    simp only [List.map_cons, List.mem_cons, not_or] at hk
    rw [List.foldl_cons, ih _ _ hk.2]
    rcases Nat.lt_or_ge k acc.length with h | h
    · rw [List.getD_eq_getElem _ _ (by simpa using h), List.getD_eq_getElem _ _ h,
        List.getElem_set_ne (fun hc => hk.1 hc.symm)]
    · rw [List.getD_eq_default _ _ (by simpa using h), List.getD_eq_default _ _ h]

theorem foldl_set_getD_of_mem (ps : List (Nat × Nat)) :
    ∀ (acc : List Nat) (i k : Nat), (i, k) ∈ ps → (ps.map Prod.snd).Nodup →
      k < acc.length →
      (ps.foldl (fun a ir => a.set ir.2 ir.1) acc).getD k 0 = i := by
  induction ps with
  | nil => intro acc i k h; exact absurd h (List.not_mem_nil _)
  | cons p ps ih =>
    intro acc i k hmem hnd hlt
    simp only [List.map_cons, List.nodup_cons] at hnd
    rcases List.mem_cons.mp hmem with heq | htail
    · subst heq
      rw [List.foldl_cons, foldl_set_getD_of_not_mem _ _ _ hnd.1,
        List.getD_eq_getElem _ _ (by simpa using hlt), List.getElem_set_self]
    · rw [List.foldl_cons]
      exact ih _ _ _ htail hnd.2 (by simpa [List.length_set] using hlt)

end InstrReorder

namespace InstrReorder

theorem computeIndexRemapping_length (order : List Nat) :
    (computeIndexRemapping order).length = order.length := by
  unfold computeIndexRemapping
  rw [foldl_set_length, List.length_replicate]

/-- The remapping inverts the order permutation pointwise. -/
theorem computeIndexRemapping_getD (order : List Nat) (hnd : order.Nodup)
    (hlt : ∀ v ∈ order, v < order.length) (i : Nat) (hi : i < order.length) :
    (computeIndexRemapping order).getD (order.getD i 0) 0 = i := by
  unfold computeIndexRemapping
  have hmem : (i, order.getD i 0) ∈ order.enum := by
    have hi2 : i < order.enum.length := by simpa using hi
    have hge : order.enum[i] = (i, order[i]) := List.getElem_enum order i hi2
    rw [List.getD_eq_getElem _ _ hi]
    exact hge ▸ List.getElem_mem hi2
  refine foldl_set_getD_of_mem _ _ _ _ hmem ?_ ?_
  · rw [List.enum_map_snd]; exact hnd
  · rw [List.length_replicate]
    exact hlt _ (by rw [List.getD_eq_getElem _ _ hi]; exact List.getElem_mem _)

/-- If `order` is a permutation of `[0, n)`, so is the derived remapping. -/
theorem computeIndexRemapping_perm (order : List Nat)
    (hperm : order.Perm (List.range order.length)) :
    (computeIndexRemapping order).Perm (List.range order.length) := by
  have hnd : order.Nodup := hperm.nodup_iff.mpr (List.nodup_range _)
  have hlt : ∀ v ∈ order, v < order.length := by
    intro v hv
    exact List.mem_range.mp (hperm.subset hv)
  have hlen := computeIndexRemapping_length order
  -- the remapping is the getD image of the range
  have hremap : computeIndexRemapping order =
      (List.range order.length).map (fun j => (computeIndexRemapping order).getD j 0) := by
    conv_lhs => rw [← map_getD_range (computeIndexRemapping order) 0]
    rw [hlen]
  -- mapping getD over the order gives back the range
  have hmap : order.map (fun j => (computeIndexRemapping order).getD j 0) =
      List.range order.length := by
    apply List.ext_getElem
    · simp
    · intro i h1 h2
      simp only [List.getElem_map, List.getElem_range]
      rw [← List.getD_eq_getElem order 0 (by simpa using h1)]
      exact computeIndexRemapping_getD order hnd hlt i (by simpa using h1)
  have := hperm.map (fun j => (computeIndexRemapping order).getD j 0)
  rw [hmap] at this
  rw [hremap]
  exact this.symm

end InstrReorder

namespace InstrReorder

/-- Fold invariant preservation. -/
theorem foldl_inv {σ β : Type _} (Inv : σ → Prop) (f : σ → β → σ) :
    ∀ (l : List β) (s : σ), Inv s → (∀ s x, Inv s → x ∈ l → Inv (f s x)) →
      Inv (l.foldl f s) := by
  intro l
  induction l with
  | nil => intro s h _; exact h
  | cons x xs ih =>
    intro s h hstep
    exact ih _ (hstep s x h (List.mem_cons_self _ _))
      (fun s y hy hmem => hstep s y hy (List.mem_cons_of_mem _ hmem))

/-- The DFS recursion never changes the number of rows. -/
theorem dfsRecurse_rows_length (graph : UseDefGraph) :
    ∀ (fuel node : Nat) (st : DfsState),
      (dfsRecurse graph fuel node st).rows.length = st.rows.length := by
  intro fuel
  induction fuel with
  | zero => intro node st; rfl
  | succ f ih =>
    intro node st
    rw [dfsRecurse]
    split
    · rfl
    · have aux : ∀ (l : List Nat) (s : DfsState),
          ((l.foldl (fun s d => dfsRecurse graph f d s) s).rows).length = s.rows.length := by
        intro l
        induction l with
        | nil => intro s; rfl
        | cons d ds ihl => intro s; rw [List.foldl_cons, ihl, ih]
      simp [List.length_set, aux]

/-- The numbering has one row per instruction of the (post-synthesis) block. -/
theorem dfs_post_order_numbering_length (block : List Bytecode) (graph : UseDefGraph) :
    (dfs_post_order_numbering block graph).length = block.length := by
  unfold dfs_post_order_numbering
  refine foldl_inv (σ := List Nat × List (List (Option Nat)))
    (fun acc => acc.2.length = block.length) _ _ _ (by simp) ?_
  intro acc oi hacc _
  unfold dfsRunStep
  split
  · simpa [dfsRecurse_rows_length] using hacc
  · exact hacc

/-- Every instruction appended by phase A or phase B is a `Prepare`. -/
theorem synth_preps_all_prepare (block : List Bytecode) :
    ∀ b ∈ (synthB block).preps, b.isPrepareCall = true := by
  have happ : ∀ (l : List Bytecode) (a t : Nat),
      (∀ b ∈ l, b.isPrepareCall = true) →
      ∀ b ∈ l ++ [mkPrepare a t], b.isPrepareCall = true := by
    intro l a t hl b hb
    rcases List.mem_append.mp hb with h | h
    · exact hl b h
    · rcases List.mem_singleton.mp h with rfl; rfl
  have hA : ∀ st uo, (∀ b ∈ st.preps, b.isPrepareCall = true) →
      ∀ b ∈ (phaseAuse block st uo).preps, b.isPrepareCall = true := by
    intro st uo hst
    unfold phaseAuse
    split
    · exact hst
    · split
      · exact hst
      · refine foldl_inv (σ := SynthState) (fun s => ∀ b ∈ s.preps, b.isPrepareCall = true) _ _ _ hst ?_
        intro s pos hs _
        unfold phaseAslot
        split
        · exact happ _ _ _ hs
        · split
          · exact happ _ _ _ hs
          · exact hs
  have hAall : ∀ b ∈ (synthA block).preps, b.isPrepareCall = true := by
    unfold synthA phaseA
    refine foldl_inv (σ := SynthState) (fun s => ∀ b ∈ s.preps, b.isPrepareCall = true) _ _ _ (by simp) ?_
    intro s uo hsc _
    exact hA s uo hsc
  have hB : ∀ st tmp pr, (∀ b ∈ st.preps, b.isPrepareCall = true) →
      ∀ b ∈ (phaseBpair block tmp st pr).preps, b.isPrepareCall = true := by
    intro st tmp pr hst
    unfold phaseBpair
    split
    · exact hst
    · split
      · exact hst
      · split
        · exact hst
        · split
          · exact hst
          · exact happ _ _ _ hst
  unfold synthB phaseB
  refine foldl_inv (σ := SynthState) (fun s => ∀ b ∈ s.preps, b.isPrepareCall = true) _ _ _ hAall ?_
  intro s kv hs _
  split
  · refine foldl_inv (σ := SynthState) (fun s => ∀ b ∈ s.preps, b.isPrepareCall = true) _ _ _ hs ?_
    intro s pr hsc _
    exact hB s kv.1.1 pr hsc
  · exact hs

end InstrReorder

namespace InstrReorder

theorem insertEdge_mono {e : EdgeSet} {a b : Nat} {p : Nat × Nat} (h : p ∈ e) :
    p ∈ insertEdge e a b :=
  List.mem_cons_of_mem _ h

theorem insertEdge_self (e : EdgeSet) (a b : Nat) : (a, b) ∈ insertEdge e a b :=
  List.mem_cons_self _ _

theorem foldl_insertEdge_fst_mono (u : Nat) :
    ∀ (l : List Nat) (e : EdgeSet) (p : Nat × Nat), p ∈ e →
      p ∈ l.foldl (fun e d => insertEdge e d u) e := by
  intro l
  induction l with
  | nil => intro e p h; exact h
  | cons d ds ih => intro e p h; exact ih _ _ (insertEdge_mono h)

theorem foldl_insertEdge_fst_mem (u : Nat) :
    ∀ (l : List Nat) (e : EdgeSet) (d : Nat), d ∈ l →
      (d, u) ∈ l.foldl (fun e x => insertEdge e x u) e := by
  intro l
  induction l with
  | nil => intro e d h; exact absurd h (List.not_mem_nil _)
  | cons x xs ih =>
    intro e d h
    rcases List.mem_cons.mp h with rfl | h
    · exact foldl_insertEdge_fst_mono u xs _ _ (insertEdge_self e d u)
    · exact ih _ _ h

theorem falseDepDrainEdges_mono {offset : Nat} {s : FalseDepState} {t : Nat}
    {p : Nat × Nat} (h : p ∈ s.edges) : p ∈ falseDepDrainEdges offset s t := by
  unfold falseDepDrainEdges
  exact foldl_insertEdge_fst_mono offset _ _ _ h

theorem falseDepDest_mono {offset : Nat} {s : FalseDepState} {t : Nat}
    {p : Nat × Nat} (h : p ∈ s.edges) : p ∈ (falseDepDest offset s t).edges := by
  unfold falseDepDest
  split
  · split
    · exact falseDepDrainEdges_mono h
    · exact insertEdge_mono (falseDepDrainEdges_mono h)
  · exact falseDepDrainEdges_mono h

theorem falseDepStep_mono {s : FalseDepState} {oi : Nat × Bytecode}
    {p : Nat × Nat} (h : p ∈ s.edges) : p ∈ (falseDepStep s oi).edges := by
  unfold falseDepStep
  refine foldl_inv (σ := FalseDepState) (fun s => p ∈ s.edges) _ _ _ h ?_
  intro s t hs _
  exact falseDepDest_mono hs

theorem add_false_dependencies_mono {c : DependenceConstraints} {block : List Bytecode}
    {p : Nat × Nat} (h : p ∈ c.edges) : p ∈ (add_false_dependencies c block).edges := by
  unfold add_false_dependencies
  refine foldl_inv (σ := FalseDepState) (fun s => p ∈ s.edges) _ _ _ h ?_
  intro s oi hs _
  exact falseDepStep_mono hs

theorem add_true_dependencies_mono {c : DependenceConstraints} {graph : UseDefGraph}
    {p : Nat × Nat} (h : p ∈ c.edges) : p ∈ (add_true_dependencies c graph).edges := by
  unfold add_true_dependencies
  refine foldl_inv (σ := EdgeSet) (fun e => p ∈ e) _ _ _ h ?_
  intro e ent he _
  exact foldl_insertEdge_fst_mono ent.1 _ _ _ he

/-- Every `Some` slot of a graph entry contributes a true-dependence edge. -/
theorem add_true_dependencies_mem {c : DependenceConstraints} {graph : UseDefGraph}
    {u : Nat} {defs : List (Option Nat)} {d : Nat}
    (hent : (u, defs) ∈ graph) (hd : some d ∈ defs) :
    (d, u) ∈ (add_true_dependencies c graph).edges := by
  unfold add_true_dependencies
  simp only
  induction graph generalizing c with
  | nil => exact absurd hent (List.not_mem_nil _)
  | cons ent rest ih =>
    rcases List.mem_cons.mp hent with rfl | hent2
    · rw [List.foldl_cons]
      refine foldl_inv (σ := EdgeSet) (fun e => (d, u) ∈ e) _ _ _ ?_ ?_
      · exact foldl_insertEdge_fst_mem u _ _ _ (List.mem_filterMap.mpr ⟨some d, hd, rfl⟩)
      · intro e ent2 he _
        exact foldl_insertEdge_fst_mono ent2.1 _ _ _ he
    · rw [List.foldl_cons]
      exact ih (c := ⟨(ent.2.filterMap id).foldl (fun e d => insertEdge e d ent.1) c.edges,
        c.num_nodes⟩) hent2

theorem refArgProducerSrc_mono {offset : Nat} {s : RefArgState} {src : Nat}
    {p : Nat × Nat} (h : p ∈ s.edges) : p ∈ (refArgProducerSrc offset s src).edges := by
  have hdrain : p ∈ refArgDrainEdges offset s src := by
    unfold refArgDrainEdges
    exact foldl_insertEdge_fst_mono offset _ _ _ h
  unfold refArgProducerSrc
  split
  · exact insertEdge_mono hdrain
  · exact hdrain

theorem refArgOtherSrc_mono {offset : Nat} {s : RefArgState} {src : Nat}
    {p : Nat × Nat} (h : p ∈ s.edges) : p ∈ (refArgOtherSrc offset s src).edges := by
  unfold refArgOtherSrc
  split
  · exact insertEdge_mono h
  · exact h

theorem refArgStep_mono {target : Nat → Bool} {s : RefArgState} {oi : Nat × Bytecode}
    {p : Nat × Nat} (h : p ∈ s.edges) : p ∈ (refArgStep target s oi).edges := by
  unfold refArgStep
  split
  · refine foldl_inv (σ := RefArgState) (fun s => p ∈ s.edges) _ _ _ h ?_
    intro s t hs _
    exact refArgProducerSrc_mono hs
  · refine foldl_inv (σ := RefArgState) (fun s => p ∈ s.edges) _ _ _ h ?_
    intro s t hs _
    exact refArgOtherSrc_mono hs

theorem add_ref_arg_dependencies_mono {c : DependenceConstraints} {block : List Bytecode}
    {target : Nat → Bool} {p : Nat × Nat} (h : p ∈ c.edges) :
    p ∈ (add_ref_arg_dependencies c block target).edges := by
  unfold add_ref_arg_dependencies
  refine foldl_inv (σ := RefArgState) (fun s => p ∈ s.edges) _ _ _ h ?_
  intro s oi hs _
  exact refArgStep_mono hs

theorem relNonReorderableStep_mono {acc : Option Nat × EdgeSet} {oi : Nat × Bytecode}
    {p : Nat × Nat} (h : p ∈ acc.2) : p ∈ (relNonReorderableStep acc oi).2 := by
  unfold relNonReorderableStep
  split
  · split
    · exact insertEdge_mono h
    · exact h
  · exact h

theorem add_relatively_non_reorderable_dependencies_mono {c : DependenceConstraints}
    {block : List Bytecode} {p : Nat × Nat} (h : p ∈ c.edges) :
    p ∈ (add_relatively_non_reorderable_dependencies c block).edges := by
  unfold add_relatively_non_reorderable_dependencies
  refine foldl_inv (σ := Option Nat × EdgeSet) (fun acc => p ∈ acc.2) _ _ _ h ?_
  intro acc oi hacc _
  exact relNonReorderableStep_mono hacc

theorem make_transitively_closed_mono {c : DependenceConstraints} {p : Nat × Nat}
    (h : p ∈ c.edges) : p ∈ (make_transitively_closed c).edges := by
  unfold make_transitively_closed
  refine foldl_inv (σ := EdgeSet) (fun e => p ∈ e) _ _ _ h ?_
  intro e k he _
  refine foldl_inv (σ := EdgeSet) (fun e => p ∈ e) _ _ _ he ?_
  intro e i he2 _
  refine foldl_inv (σ := EdgeSet) (fun e => p ∈ e) _ _ _ he2 ?_
  intro e j he3 _
  split
  · exact insertEdge_mono he3
  · exact he3

/-- The closed constraints contain the pre-closure constraints. -/
theorem preClosure_subset_closure {newBlock : List Bytecode} {graph : UseDefGraph}
    {target : Nat → Bool} {p : Nat × Nat}
    (h : p ∈ (preClosureConstraints newBlock graph target).edges) :
    p ∈ (buildConstraints newBlock graph target).edges :=
  make_transitively_closed_mono h

/-- An edge recorded in the constraints makes the comparator return `lt`. -/
theorem cmpOffsets_lt_of_edge {deps : EdgeSet} {dfs : List (List (Option Nat))}
    {a b : Nat} (h : deps.contains (a, b) = true) :
    cmpOffsets deps dfs a b = Ordering.lt := by
  unfold cmpOffsets
  rw [if_pos h]

end InstrReorder

namespace InstrReorder

/-- Equation for the skip branch of the per-block pipeline. -/
theorem optimize_block_of_skip (block : List Bytecode) (target : Nat → Bool)
    (h : skipBlock block = true) :
    optimize_block_for_stack_machine block target = ⟨block, [], []⟩ := by
  unfold optimize_block_for_stack_machine
  rw [if_pos h]

/-- Equation for the non-skip branch of the per-block pipeline. -/
theorem optimize_block_of_not_skip (block : List Bytecode) (target : Nat → Bool)
    (h : skipBlock block = false) :
    optimize_block_for_stack_machine block target =
      ⟨reorderedOf block target, orderingOf block target, touchUseOf block target⟩ := by
  unfold optimize_block_for_stack_machine
  rw [h]
  rfl

theorem newBlockOf_eq (block : List Bytecode) :
    newBlockOf block = block ++ (synthB block).preps := rfl

theorem dfsOf_length (block : List Bytecode) :
    (dfsOf block).length = (newBlockOf block).length :=
  dfs_post_order_numbering_length _ _

/-- The selected order is a permutation of the offsets of the post-synthesis
block. -/
theorem orderOf_perm (block : List Bytecode) (target : Nat → Bool) :
    (orderOf block target).Perm (List.range (newBlockOf block).length) := by
  unfold orderOf get_ordered_instr_indices
  rw [dfsOf_length]
  exact stableSort_perm _ _

theorem orderOf_length (block : List Bytecode) (target : Nat → Bool) :
    (orderOf block target).length = (newBlockOf block).length := by
  have := (orderOf_perm block target).length_eq
  simpa using this

/-- The index remapping is a permutation (hence a bijection) of the offsets
of the post-synthesis block. -/
theorem remapOf_perm (block : List Bytecode) (target : Nat → Bool) :
    (remapOf block target).Perm (List.range (newBlockOf block).length) := by
  have h := computeIndexRemapping_perm (orderOf block target)
    (by rw [orderOf_length]; exact orderOf_perm block target)
  rw [orderOf_length] at h
  exact h

theorem remapOf_length (block : List Bytecode) (target : Nat → Bool) :
    (remapOf block target).length = (newBlockOf block).length := by
  unfold remapOf
  rw [computeIndexRemapping_length, orderOf_length]

/-- The reordered block is a permutation of the post-synthesis block. -/
theorem reorderedOf_perm (block : List Bytecode) (target : Nat → Bool) :
    (reorderedOf block target).Perm (newBlockOf block) := by
  unfold reorderedOf
  have h := (orderOf_perm block target).map (fun v => (newBlockOf block).getD v defaultInstr)
  rwa [map_getD_range] at h

/-- Non-`Prepare` filtering of the reordered block recovers the non-`Prepare`
instructions of the original block. -/
theorem reorderedOf_filter_perm (block : List Bytecode) (target : Nat → Bool) :
    ((reorderedOf block target).filter (fun i => !i.isPrepareCall)).Perm
      (block.filter (fun i => !i.isPrepareCall)) := by
  have h := (reorderedOf_perm block target).filter (fun i => !i.isPrepareCall)
  rw [newBlockOf_eq, List.filter_append] at h
  have hnil : (synthB block).preps.filter (fun i => !i.isPrepareCall) = [] := by
    apply List.filter_eq_nil_iff.mpr
    intro b hb
    simp [synth_preps_all_prepare block b hb]
  rw [hnil, List.append_nil] at h
  exact h

/-- Non-`Prepare` filtering through the whole per-block pass. -/
theorem optimize_block_filter_perm (block : List Bytecode) (target : Nat → Bool) :
    (((optimize_block_for_stack_machine block target).block).filter
        (fun i => !i.isPrepareCall)).Perm
      (block.filter (fun i => !i.isPrepareCall)) := by
  by_cases h : skipBlock block = true
  · rw [optimize_block_of_skip block target h]
  · rw [optimize_block_of_not_skip block target (by simpa using h)]
    exact reorderedOf_filter_perm block target

end InstrReorder

namespace InstrReorder

set_option maxRecDepth 100000 in
/-- C1: the claim as stated is false.  On `exCycleBlock` the dependence
closure is cyclic, so every ordered pair of offsets is related by an edge and
the comparator answers `Less` on every query; the insertion sort therefore
shifts each element past the whole sorted prefix and reverses the block
(`index_remapping = [5, 4, 3, 2, 1, 0]`).  The pre-closure
write-after-read false-dependence edge from offset 0 (which reads
temporary 11) to offset 1 (which writes it) is then realized backwards:
offset 0 is remapped to 5 and offset 1 to 4. -/
theorem C1_counterexample :
    (preClosureConstraints (newBlockOf exCycleBlock) (useDefGraphOf exCycleBlock)
        exCycleTarget).edges.contains (0, 1) = true ∧
    ¬ ((remapOf exCycleBlock exCycleTarget).getD 0 0 <
        (remapOf exCycleBlock exCycleTarget).getD 1 0) := by
  constructor
  · decide
  · decide

/-- C1 (amended): for every edge `a -> b` of the pre-closure dependence graph
(union of true, false, reference-argument and chain edges), the comparator
used by `get_ordered_instr_indices` ranks `a` strictly before `b`.  The
returned permutation itself need not respect the edge: on a cyclic closure
the comparator answers `Less` both ways, so it is inconsistent, and the
insertion sort can move `a` past `b` (see the counterexample). -/
theorem C1_pre_closure_edge_comparator_lt (block : List Bytecode) (target : Nat → Bool)
    (a b : Nat)
    (h : (preClosureConstraints (newBlockOf block) (useDefGraphOf block) target).edges.contains
          (a, b) = true) :
    cmpOffsets (depsOf block target).edges (dfsOf block) a b = Ordering.lt := by
  apply cmpOffsets_lt_of_edge
  have hmem : (a, b) ∈ (preClosureConstraints (newBlockOf block) (useDefGraphOf block)
      target).edges := by
    simpa using h
  have : (a, b) ∈ (buildConstraints (newBlockOf block) (useDefGraphOf block) target).edges :=
    preClosure_subset_closure hmem
  simpa using this

set_option maxRecDepth 100000 in
theorem C1_witness :
    (preClosureConstraints (newBlockOf exAddBlock) (useDefGraphOf exAddBlock)
        anyTarget).edges.contains (1, 0) = true ∧
    cmpOffsets (depsOf exAddBlock anyTarget).edges (dfsOf exAddBlock) 1 0 = Ordering.lt :=
  ⟨by decide, C1_pre_closure_edge_comparator_lt exAddBlock anyTarget 1 0 (by decide)⟩

set_option maxRecDepth 100000 in
/-- C2: the claim as stated is false on a block that already contains a
`Prepare`: the non-`Prepare` instructions of the reordered block (none) do
not form the multiset of the original instructions (one `Prepare`). -/
theorem C2_counterexample :
    ¬ (((optimize_block_for_stack_machine exPrepBlock anyTarget).block.filter
        (fun i => !i.isPrepareCall)).Perm exPrepBlock) := by
  decide

/-- C2 (amended): `get_ordered_instr_indices` returns a permutation of
`[0, N)` for `N` the post-synthesis block length, the derived
`index_remapping` is a bijection on `[0, N)` (a permutation of `[0, N)` as a
list), and the multiset of non-`Prepare` instructions of the reordered block
equals the multiset of non-`Prepare` instructions of the original block. -/
theorem C2_permutation_bijection_multiset (block : List Bytecode) (target : Nat → Bool) :
    (orderOf block target).Perm (List.range (newBlockOf block).length) ∧
    (remapOf block target).Perm (List.range (newBlockOf block).length) ∧
    ((reorderedOf block target).filter (fun i => !i.isPrepareCall)).Perm
      (block.filter (fun i => !i.isPrepareCall)) :=
  ⟨orderOf_perm block target, remapOf_perm block target, reorderedOf_filter_perm block target⟩

set_option maxRecDepth 1000000 in
/-- C4: the claim as stated is false.  On the output of the pass for
`exAddBlock` (a `Prepare` for temporary 30 followed by the binary operation)
a second run synthesizes a new `Prepare`: a `Prepare` does not define the
temporary it prepares, so the non-last source 30 is still outside-defined. -/
theorem C4_counterexample :
    ((optimize_block_for_stack_machine
        (optimize_block_for_stack_machine exAddBlock anyTarget).block anyTarget).block.filter
      (fun i => i.isPrepareCall)).length = 2 ∧
    ((optimize_block_for_stack_machine exAddBlock anyTarget).block.filter
      (fun i => i.isPrepareCall)).length = 1 ∧
    (optimize_block_for_stack_machine
        (optimize_block_for_stack_machine exAddBlock anyTarget).block anyTarget).block ≠
      (optimize_block_for_stack_machine exAddBlock anyTarget).block := by
  refine ⟨by decide, by decide, by decide⟩

set_option maxRecDepth 1000000 in
/-- C4 (amended): a second run of the pass on its own output can synthesize
new `Prepare` instructions (one per still-unsatisfied non-last source), but
it never changes the multiset of non-`Prepare` instructions, and on the
example block the second output is exactly the first output with the
`Prepare` duplicated (so the two agree modulo `Prepare`-coalescing). -/
theorem C4_second_run_prepares (block : List Bytecode) (target : Nat → Bool) :
    (((optimize_block_for_stack_machine
          (optimize_block_for_stack_machine block target).block target).block.filter
        (fun i => !i.isPrepareCall)).Perm
      (((optimize_block_for_stack_machine block target).block).filter
        (fun i => !i.isPrepareCall))) ∧
    (optimize_block_for_stack_machine
        (optimize_block_for_stack_machine exAddBlock anyTarget).block anyTarget).block =
      mkPrepare 7 30 :: (optimize_block_for_stack_machine exAddBlock anyTarget).block :=
  ⟨optimize_block_filter_perm _ target, by decide⟩

end InstrReorder

namespace InstrReorder

theorem sliceBlock_whole (code : List Bytecode) :
    sliceBlock code 0 (code.length - 1) = code := by
  unfold sliceBlock
  cases code with
  | nil => rfl
  | cons x xs => simp [Nat.succ_sub_one]

theorem stableSort_singleton (le : α → α → Bool) (x : α) : stableSort le [x] = [x] := rfl

/-- C5: a block that triggers the per-block skip (length over 128, spec-only
content, a `SpecBlock`, or a multi-return-opaque call) is returned unchanged
with empty ordering and prepare-use annotations, and the function-level pass
on a function consisting of that block still succeeds: the function body is
unchanged and any reordered function it produces carries empty annotations. -/
theorem C5_skip_pass_through (block : List Bytecode) (target : Nat → Bool)
    (hb : skipBlock block = true) :
    optimize_block_for_stack_machine block target = ⟨block, [], []⟩ ∧
    processFunction false block [(0, block.length - 1)] target = block ∧
    (∀ rf, compute_reordered_instructions block [(0, block.length - 1)] target = some rf →
      rf.code = block ∧ rf.ordering = [] ∧ rf.touch_use = []) := by
  refine ⟨optimize_block_of_skip block target hb, ?_, ?_⟩
  · unfold processFunction compute_reordered_instructions
    by_cases hs : block.any (fun i => i.is_spec_only) = true
    · rw [if_neg (by simp), if_pos hs]
    · rw [if_neg (by simp), if_neg (by simpa using hs)]
      simp only [stableSort_singleton, List.foldl_cons, List.foldl_nil]
      rw [sliceBlock_whole, optimize_block_of_skip block target hb]
      simp [appendReorderedBlock]
  · intro rf hrf
    unfold compute_reordered_instructions at hrf
    by_cases hs : block.any (fun i => i.is_spec_only) = true
    · rw [if_pos hs] at hrf
      exact absurd hrf (by simp)
    · rw [if_neg (by simpa using hs)] at hrf
      simp only [stableSort_singleton, List.foldl_cons, List.foldl_nil] at hrf
      rw [sliceBlock_whole, optimize_block_of_skip block target hb] at hrf
      have : rf = appendReorderedBlock ⟨[], [], []⟩ ⟨block, [], []⟩ := by
        injection hrf with h
        exact h.symm
      subst this
      simp [appendReorderedBlock]

theorem C5_witness :
    skipBlock exSkipBlock = true ∧
    optimize_block_for_stack_machine exSkipBlock anyTarget = ⟨exSkipBlock, [], []⟩ ∧
    processFunction false exSkipBlock [(0, exSkipBlock.length - 1)] anyTarget = exSkipBlock :=
  ⟨by decide, (C5_skip_pass_through exSkipBlock anyTarget (by decide)).1,
    (C5_skip_pass_through exSkipBlock anyTarget (by decide)).2.1⟩

end InstrReorder

namespace InstrReorder

/-- The keys of the emitted ordering annotation are exactly the remapping. -/
theorem orderingOf_keys (block : List Bytecode) (target : Nat → Bool) :
    (orderingOf block target).map Prod.fst = remapOf block target := by
  unfold orderingOf
  rw [List.map_map]
  have : (Prod.fst ∘ fun o => ((remapOf block target).getD o 0,
      OrderInfo.mk
        ((List.range (depsOf block target).num_nodes).filter
          (fun j => (depsOf block target).edges.contains (o, j)))
        ((dfsOf block).getD o []))) = fun o => (remapOf block target).getD o 0 := rfl
  rw [this, ← remapOf_length block target, map_getD_range]

/-- C10: for a non-skipped block the emitted ordering annotation holds
exactly one `OrderInfo` per new offset in `[0, N)` (its keys are a
permutation of `[0, N)`, `N` the post-synthesis length), and the annotation
is empty exactly for skipped or empty blocks. -/
theorem C10_ordering_annot_coverage (block : List Bytecode) (target : Nat → Bool) :
    (skipBlock block = false →
      ((optimize_block_for_stack_machine block target).ordering.map Prod.fst).Perm
        (List.range (newBlockOf block).length)) ∧
    ((optimize_block_for_stack_machine block target).ordering = [] ↔
      (skipBlock block = true ∨ block = [])) := by
  constructor
  · intro h
    rw [optimize_block_of_not_skip block target h]
    show ((orderingOf block target).map Prod.fst).Perm _
    rw [orderingOf_keys]
    exact remapOf_perm block target
  · constructor
    · intro h
      by_cases hs : skipBlock block = true
      · exact Or.inl hs
      · right
        rw [optimize_block_of_not_skip block target (by simpa using hs)] at h
        have h2 : (orderingOf block target) = [] := h
        unfold orderingOf at h2
        have h3 : List.range (newBlockOf block).length = [] := List.map_eq_nil_iff.mp h2
        have h4 : (newBlockOf block).length = 0 := by
          have := congrArg List.length h3
          simpa using this
        rw [newBlockOf_eq] at h4
        simp only [List.length_append, Nat.add_eq_zero] at h4
        exact List.length_eq_zero.mp h4.1
    · intro h
      rcases h with h | h
      · rw [optimize_block_of_skip block target h]
      · subst h
        rw [optimize_block_of_not_skip [] target (by decide)]
        show orderingOf [] target = []
        unfold orderingOf
        have : newBlockOf [] = [] := by decide
        rw [this]
        rfl

set_option maxRecDepth 100000 in
theorem C10_witness :
    skipBlock exAddBlock = false ∧
    ((optimize_block_for_stack_machine exAddBlock anyTarget).ordering.map Prod.fst).Perm
      (List.range (newBlockOf exAddBlock).length) :=
  ⟨by decide, (C10_ordering_annot_coverage exAddBlock anyTarget).1 (by decide)⟩

end InstrReorder

namespace InstrReorder

/-- A recorded latest write lies strictly before the reading offset. -/
theorem latestWriteBefore_lt {block : List Bytecode} {o tmp d : Nat}
    (h : latestWriteBefore block o tmp = some d) : d < o := by
  unfold latestWriteBefore at h
  exact List.mem_range.mp (List.mem_of_mem_filter (List.mem_of_getLast?_eq_some h))

/-- Offsets up to the old length see the same latest write after appending. -/
theorem latestWriteBefore_stable (bs : List Bytecode) (i : Bytecode) (o tmp : Nat)
    (h : o ≤ bs.length) : latestWriteBefore (bs ++ [i]) o tmp = latestWriteBefore bs o tmp := by
  unfold latestWriteBefore
  congr 1
  apply List.filter_congr
  intro j hj
  rw [List.getD_append _ _ _ _ (lt_of_lt_of_le (List.mem_range.mp hj) h)]

theorem getD_append_length (bs : List Bytecode) (i : Bytecode) :
    (bs ++ [i]).getD bs.length defaultInstr = i := by
  rw [List.getD_eq_getElem _ _ (by simp)]
  simp

/-- Appending one instruction extends the latest-write view by its dests. -/
theorem latestWriteBefore_snoc (bs : List Bytecode) (i : Bytecode) (tmp : Nat) :
    latestWriteBefore (bs ++ [i]) (bs.length + 1) tmp =
      if tmp ∈ i.dests then some bs.length else latestWriteBefore bs bs.length tmp := by
  unfold latestWriteBefore
  rw [List.range_succ, List.filter_append]
  by_cases h : tmp ∈ i.dests
  · have h1 : List.filter
        (fun j => ((bs ++ [i]).getD j defaultInstr).dests.contains tmp) [bs.length] =
        [bs.length] := by
      simp [getD_append_length, h]
    rw [h1, List.getLast?_append]
    simp [h]
  · have h1 : List.filter
        (fun j => ((bs ++ [i]).getD j defaultInstr).dests.contains tmp) [bs.length] =
        ([] : List Nat) := by
      simp [getD_append_length, h]
    rw [h1, List.append_nil, if_neg h]
    congr 1
    apply List.filter_congr
    intro j hj
    rw [List.getD_append _ _ _ _ (List.mem_range.mp hj)]

theorem lwGet_cons_ne (lw : List (Nat × Nat)) (d o t : Nat) (h : d ≠ t) :
    lwGet ((d, o) :: lw) t = lwGet lw t := by
  simp [lwGet, List.find?_cons, h]

theorem lwGet_foldl_dests (o : Nat) (dests : List Nat) :
    ∀ (lw : List (Nat × Nat)) (t : Nat),
      lwGet (dests.foldl (fun lw t => (t, o) :: lw) lw) t =
        if t ∈ dests then some o else lwGet lw t := by
  induction dests with
  | nil => intro lw t; simp
  | cons d ds ih =>
    intro lw t
    rw [List.foldl_cons, ih]
    by_cases h : t ∈ ds
    · simp [h, List.mem_cons]
    · by_cases h2 : t = d
      · subst h2
        simp [h, lwGet]
      · rw [lwGet_cons_ne _ _ _ _ (Ne.symm h2)]
        simp [h, h2]

theorem walk_snoc (bs : List Bytecode) (i : Bytecode) :
    walk (bs ++ [i]) = walkStep (walk bs) (bs.length, i) := by
  unfold walk
  rw [List.enum_append, List.foldl_append]
  rfl

theorem option_map_or {α β : Type _} (f : α → β) (o o2 : Option α) :
    (o.or o2).map f = (o.map f).or (o2.map f) := by
  cases o <;> rfl

theorem graphGet_append (g : UseDefGraph) (n : Nat) (v : List (Option Nat)) (u : Nat) :
    graphGet (g ++ [(n, v)]) u =
      (graphGet g u).or (if n = u then some v else none) := by
  unfold graphGet
  rw [List.find?_append, option_map_or]
  congr 1
  by_cases h : n = u
  · simp [List.find?_cons, h]
  · simp [List.find?_cons, h]

theorem flatMapCongr {α β : Type _} {l : List α} {f g : α → List β}
    (h : ∀ a ∈ l, f a = g a) : l.flatMap f = l.flatMap g := by
  induction l with
  | nil => rfl
  | cons x xs ih =>
    simp only [List.flatMap_cons]
    rw [h x (List.mem_cons_self _ _), ih (fun a ha => h a (List.mem_cons_of_mem _ ha))]

theorem fst_lt_of_mem_enum {l : List α} {oi : Nat × α} (h : oi ∈ l.enum) :
    oi.1 < l.length := by
  have : oi.1 ∈ List.map Prod.fst l.enum := List.mem_map_of_mem _ h
  rw [List.enum_map_fst] at this
  exact List.mem_range.mp this

/-- Characterization of the forward walk: the latest-write table, the use-def
graph, and the recorded uses index, all in terms of `latestWriteBefore`.
The graph entry of a use has one positionally aligned slot per source,
holding the offset of the latest in-block write before the use (or `None`);
because destinations are folded in after the sources are resolved, an
instruction that reads and writes the same temporary resolves the read to
the previous writer. -/
theorem walk_char (block : List Bytecode) :
    (∀ t, lwGet (walk block).latestWrite t = latestWriteBefore block block.length t) ∧
    (∀ u, graphGet (walk block).graph u =
      if u < block.length ∧ (block.getD u defaultInstr).sources ≠ [] then
        some ((block.getD u defaultInstr).sources.map (latestWriteBefore block u))
      else none) ∧
    ((walk block).usesList = block.enum.flatMap
      (fun oi => oi.2.sources.enum.map
        (fun pi => ((pi.2, latestWriteBefore block oi.1 pi.2), (oi.1, pi.1))))) := by
  induction block using List.reverseRecOn with
  | nil =>
    refine ⟨fun t => rfl, fun u => ?_, rfl⟩
    simp [walk, initWalkState, graphGet]
  | append_singleton bs i ih =>
    obtain ⟨ihLW, ihG, ihU⟩ := ih
    have hlen : (bs ++ [i]).length = bs.length + 1 := by simp
    have hgetlen := getD_append_length bs i
    have hmapLW : ∀ o, o ≤ bs.length → ∀ srcs : List Nat,
        srcs.map (latestWriteBefore (bs ++ [i]) o) = srcs.map (latestWriteBefore bs o) := by
      intro o ho srcs
      apply List.map_congr_left
      intro t _
      exact latestWriteBefore_stable bs i o t ho
    constructor
    · -- latest write table
      intro t
      rw [walk_snoc, hlen, latestWriteBefore_snoc]
      unfold walkStep
      by_cases hsrc : i.sources.isEmpty = true
      · simp only [hsrc, if_true]
        show lwGet (i.dests.foldl (fun lw t => (t, bs.length) :: lw) (walk bs).latestWrite) t = _
        rw [lwGet_foldl_dests, ihLW]
      · simp only [hsrc, Bool.false_eq_true, if_false]
        show lwGet (i.dests.foldl (fun lw t => (t, bs.length) :: lw) (walk bs).latestWrite) t = _
        rw [lwGet_foldl_dests, ihLW]
    constructor
    · -- use-def graph
      intro u
      rw [walk_snoc]
      unfold walkStep
      rcases Nat.lt_trichotomy u bs.length with hu | hu | hu
      · -- old offsets: entry unchanged
        have hget : (bs ++ [i]).getD u defaultInstr = bs.getD u defaultInstr :=
          List.getD_append _ _ _ _ hu
        have hval : (if u < (bs ++ [i]).length ∧ ((bs ++ [i]).getD u defaultInstr).sources ≠ []
              then some (((bs ++ [i]).getD u defaultInstr).sources.map
                (latestWriteBefore (bs ++ [i]) u))
              else none) =
            (if u < bs.length ∧ (bs.getD u defaultInstr).sources ≠ []
              then some ((bs.getD u defaultInstr).sources.map (latestWriteBefore bs u))
              else none) := by
          by_cases hc : u < bs.length ∧ (bs.getD u defaultInstr).sources ≠ []
          · rw [if_pos hc, if_pos ⟨by omega, by rw [hget]; exact hc.2⟩, hget,
              hmapLW u (Nat.le_of_lt hu)]
          · rw [if_neg hc, if_neg ?_]
            intro h2
            exact hc ⟨hu, by rw [← hget]; exact h2.2⟩
        rw [hval]
        by_cases hsrc : i.sources.isEmpty = true
        · simp only [hsrc, if_true]
          exact ihG u
        · simp only [hsrc, Bool.false_eq_true, if_false]
          show graphGet ((walk bs).graph ++
            [(bs.length, i.sources.map (lwGet (walk bs).latestWrite))]) u = _
          rw [graphGet_append, if_neg (by omega), Option.or_none]
          exact ihG u
      · -- the new offset
        subst hu
        have hcondOld : ¬ (bs.length < bs.length ∧
            (bs.getD bs.length defaultInstr).sources ≠ []) := by
          intro h
          exact absurd h.1 (lt_irrefl _)
        by_cases hsrc : i.sources.isEmpty = true
        · simp only [hsrc, if_true]
          show graphGet (walk bs).graph bs.length = _
          rw [ihG bs.length, if_neg hcondOld, if_neg ?_]
          intro h
          rw [hgetlen] at h
          exact h.2 (List.isEmpty_iff.mp hsrc)
        · simp only [hsrc, Bool.false_eq_true, if_false]
          show graphGet ((walk bs).graph ++
            [(bs.length, i.sources.map (lwGet (walk bs).latestWrite))]) bs.length = _
          rw [graphGet_append, if_pos rfl, ihG bs.length, if_neg hcondOld, Option.none_or,
            if_pos ⟨by omega, by rw [hgetlen]; exact fun h => hsrc (List.isEmpty_iff.mpr h)⟩]
          rw [hgetlen]
          congr 1
          apply List.map_congr_left
          intro t _
          rw [ihLW t, latestWriteBefore_stable bs i bs.length t (le_refl _)]
      · -- beyond the new length
        have hcondOld : ¬ (u < bs.length ∧ (bs.getD u defaultInstr).sources ≠ []) := by
          intro h
          omega
        have hcondNew : ¬ (u < (bs ++ [i]).length ∧
            ((bs ++ [i]).getD u defaultInstr).sources ≠ []) := by
          intro h
          rw [hlen] at h
          omega
        by_cases hsrc : i.sources.isEmpty = true
        · simp only [hsrc, if_true]
          show graphGet (walk bs).graph u = _
          rw [ihG u, if_neg hcondOld, if_neg hcondNew]
        · simp only [hsrc, Bool.false_eq_true, if_false]
          show graphGet ((walk bs).graph ++
            [(bs.length, i.sources.map (lwGet (walk bs).latestWrite))]) u = _
          rw [graphGet_append, if_neg (by omega), Option.or_none, ihG u, if_neg hcondOld,
            if_neg hcondNew]
    · -- uses index
      rw [walk_snoc]
      unfold walkStep
      have hrhs : (bs ++ [i]).enum.flatMap
          (fun oi => oi.2.sources.enum.map
            (fun pi => ((pi.2, latestWriteBefore (bs ++ [i]) oi.1 pi.2), (oi.1, pi.1)))) =
          bs.enum.flatMap (fun oi => oi.2.sources.enum.map
            (fun pi => ((pi.2, latestWriteBefore bs oi.1 pi.2), (oi.1, pi.1)))) ++
          i.sources.enum.map
            (fun pi => ((pi.2, latestWriteBefore bs bs.length pi.2), (bs.length, pi.1))) := by
        rw [List.enum_append, List.flatMap_append]
        congr 1
        · apply flatMapCongr
          intro oi hoi
          apply List.map_congr_left
          intro pi _
          rw [latestWriteBefore_stable bs i oi.1 pi.2 (Nat.le_of_lt (fst_lt_of_mem_enum hoi))]
        · show List.flatMap [(bs.length, i)] _ = _
          rw [List.flatMap_cons, List.flatMap_nil, List.append_nil]
          apply List.map_congr_left
          intro pi _
          rw [latestWriteBefore_stable bs i bs.length pi.2 (le_refl _)]
      rw [hrhs]
      by_cases hsrc : i.sources.isEmpty = true
      · simp only [hsrc, if_true]
        show (walk bs).usesList = _
        rw [List.isEmpty_iff.mp hsrc]
        simpa using ihU
      · simp only [hsrc, Bool.false_eq_true, if_false]
        show (walk bs).usesList ++ i.sources.enum.map
            (fun pi => ((pi.2, lwGet (walk bs).latestWrite pi.2), (bs.length, pi.1))) = _
        rw [ihU]
        congr 1
        apply List.map_congr_left
        intro pi _
        rw [ihLW pi.2]

end InstrReorder

namespace InstrReorder

theorem find?_updateSlot (g : UseDefGraph) (uo pos p v : Nat) :
    (updateSlot g uo pos p).find? (fun ent => ent.1 = v) =
      (g.find? (fun ent => ent.1 = v)).map
        (fun ent => if ent.1 = uo then (ent.1, ent.2.set pos (some p)) else ent) := by
  induction g with
  | nil => rfl
  | cons ent rest ih =>
    unfold updateSlot at ih ⊢
    rw [List.map_cons, List.find?_cons, List.find?_cons]
    have hkey : (if ent.1 = uo then (ent.1, ent.2.set pos (some p)) else ent).1 = ent.1 := by
      split <;> rfl
    have hpred : (decide ((if ent.1 = uo then (ent.1, ent.2.set pos (some p)) else ent).1 = v))
        = decide (ent.1 = v) := by rw [hkey]
    rw [hpred]
    rcases hd : decide (ent.1 = v)
    · exact ih
    · rfl

theorem graphGet_updateSlot (g : UseDefGraph) (uo pos p v : Nat) :
    graphGet (updateSlot g uo pos p) v =
      if v = uo then (graphGet g v).map (fun defs => defs.set pos (some p))
      else graphGet g v := by
  unfold graphGet
  rw [find?_updateSlot]
  rcases hf : g.find? (fun ent => ent.1 = v) with _ | ent
  · rw [hf]
    split <;> rfl
  · rw [hf]
    have hkey : ent.1 = v := by simpa using List.find?_some hf
    by_cases hv : v = uo
    · rw [if_pos hv]
      simp only [Option.map_some']
      rw [if_pos (hv ▸ hkey)]
    · rw [if_neg hv]
      simp only [Option.map_some']
      rw [if_neg (fun hc => hv (hkey ▸ hc))]

theorem slotBound_updateSlot {block : List Bytecode} {g : UseDefGraph} {uo pos p : Nat}
    (hg : SlotBound block g) (hp : block.length ≤ p) :
    SlotBound block (updateSlot g uo pos p) := by
  intro v defs pos2 d hget hslot
  rw [graphGet_updateSlot] at hget
  by_cases hv : v = uo
  · rw [if_pos hv] at hget
    rcases hget0 : graphGet g v with _ | defs0
    · rw [hget0] at hget; exact absurd hget (by simp)
    · rw [hget0] at hget
      simp only [Option.map_some'] at hget
      have hdefs : defs = defs0.set pos (some p) := by
        injection hget with h
        exact h.symm
      subst hdefs
      by_cases hlt : pos2 < defs0.length
      · rw [List.getD_eq_getElem _ _ (by simpa using hlt), List.getElem_set] at hslot
        by_cases hpp : pos = pos2
        · rw [if_pos hpp] at hslot
          injection hslot with h
          subst h
          exact Or.inr hp
        · rw [if_neg hpp] at hslot
          refine hg v defs0 pos2 d hget0 ?_
          rw [List.getD_eq_getElem _ _ hlt]
          exact hslot
      · rw [List.getD_eq_default _ _ (by simp only [List.length_set]; omega)] at hslot
        exact absurd hslot (by simp)
  · rw [if_neg hv] at hget
    exact hg v defs pos2 d hget hslot

theorem slotBound_phaseAslot {block : List Bytecode} {uo : Nat} {s : SynthState}
    (hs : SlotBound block s.graph) (pos : Nat) :
    SlotBound block (phaseAslot block uo s pos).graph := by
  unfold phaseAslot
  split
  · exact slotBound_updateSlot hs (Nat.le_add_right _ _)
  · split
    · exact slotBound_updateSlot hs (Nat.le_add_right _ _)
    · exact hs

theorem slotBound_synthB (block : List Bytecode) :
    SlotBound block (synthB block).graph := by
  have hbase : SlotBound block (walk block).graph := by
    intro v defs pos d hget hslot
    rw [(walk_char block).2.1 v] at hget
    split at hget
    · have hdefs : defs = (block.getD v defaultInstr).sources.map (latestWriteBefore block v) := by
        injection hget with h
        exact h.symm
      subst hdefs
      by_cases hlt : pos < (block.getD v defaultInstr).sources.length
      · rw [List.getD_eq_getElem _ _ (by simpa using hlt), List.getElem_map] at hslot
        left
        exact latestWriteBefore_lt hslot
      · rw [List.getD_eq_default _ _ (by simpa using Nat.le_of_not_lt hlt)] at hslot
        exact absurd hslot (by simp)
    · exact absurd hget (by simp)
  have hA : SlotBound block (synthA block).graph := by
    unfold synthA phaseA
    refine foldl_inv (σ := SynthState) (fun s => SlotBound block s.graph) _ _ _ hbase ?_
    intro s uo hsb _
    unfold phaseAuse
    split
    · exact hsb
    · split
      · exact hsb
      · exact foldl_inv (σ := SynthState) (fun s => SlotBound block s.graph) _ _ _ hsb
          (fun s pos hs _ => slotBound_phaseAslot hs pos)
  unfold synthB phaseB
  refine foldl_inv (σ := SynthState) (fun s => SlotBound block s.graph) _ _ _ hA ?_
  intro s kv hsb _
  split
  · refine foldl_inv (σ := SynthState) (fun s => SlotBound block s.graph) _ _ _ hsb ?_
    intro s pr hs _
    unfold phaseBpair
    split
    · exact hs
    · split
      · exact hs
      · split
        · exact hs
        · split
          · exact hs
          · exact slotBound_updateSlot hs (Nat.le_add_right _ _)
  · exact hsb

/-- The deferred prepare edges point from a `Prepare` offset at or beyond the
original block length back to an original definition offset. -/
theorem synth_prepEdges_bounds (block : List Bytecode) :
    ∀ pd ∈ (synthB block).prepEdges, pd.2 < block.length ∧ block.length ≤ pd.1 := by
  have hstepA : ∀ (s : SynthState) uo pos,
      (∀ pd ∈ s.prepEdges, pd.2 < block.length ∧ block.length ≤ pd.1) →
      ∀ pd ∈ (phaseAslot block uo s pos).prepEdges,
        pd.2 < block.length ∧ block.length ≤ pd.1 := by
    intro s uo pos hs
    unfold phaseAslot
    split
    · exact hs
    · rename_i d hd
      split
      · rename_i hassign
        intro pd hpd
        rcases List.mem_append.mp hpd with h | h
        · exact hs pd h
        · rcases List.mem_singleton.mp h with rfl
          refine ⟨?_, Nat.le_add_right _ _⟩
          by_contra hge
          rw [List.getD_eq_default _ _ (Nat.le_of_not_lt hge)] at hassign
          exact absurd hassign (by decide)
      · exact hs
  have hA : ∀ pd ∈ (synthA block).prepEdges, pd.2 < block.length ∧ block.length ≤ pd.1 := by
    unfold synthA phaseA
    refine foldl_inv (σ := SynthState)
      (fun s => ∀ pd ∈ s.prepEdges, pd.2 < block.length ∧ block.length ≤ pd.1) _ _ _
      (by simp) ?_
    intro s uo hsb _
    unfold phaseAuse
    split
    · exact hsb
    · split
      · exact hsb
      · exact foldl_inv (σ := SynthState)
          (fun s => ∀ pd ∈ s.prepEdges, pd.2 < block.length ∧ block.length ≤ pd.1) _ _ _ hsb
          (fun s pos hs _ => hstepA s _ pos hs)
  unfold synthB phaseB
  refine foldl_inv (σ := SynthState)
    (fun s => ∀ pd ∈ s.prepEdges, pd.2 < block.length ∧ block.length ≤ pd.1) _ _ _ hA ?_
  intro s kv hsb _
  split
  · refine foldl_inv (σ := SynthState)
      (fun s => ∀ pd ∈ s.prepEdges, pd.2 < block.length ∧ block.length ≤ pd.1) _ _ _ hsb ?_
    intro s pr hs _
    unfold phaseBpair
    split
    · exact hs
    · split
      · exact hs
      · split
        · exact hs
        · split
          · exact hs
          · rename_i hd
            intro pd hpd
            rcases List.mem_append.mp hpd with h | h
            · exact hs pd h
            · rcases List.mem_singleton.mp h with rfl
              exact ⟨Nat.lt_of_not_le hd, Nat.le_add_right _ _⟩
  · exact hsb

/-- Slot bound for the final use-def graph, prepare rows included. -/
theorem useDefGraphOf_slots (block : List Bytecode) :
    ∀ v defs pos d, graphGet (useDefGraphOf block) v = some defs →
      defs.getD pos none = some d → d < v ∨ block.length ≤ d := by
  intro v defs pos d hget hslot
  have hv : useDefGraphOf block =
      (synthB block).graph ++ ((synthB block).prepEdges.map (fun pd => (pd.1, [some pd.2]))) := rfl
  rw [hv] at hget
  unfold graphGet at hget
  rw [List.find?_append, option_map_or] at hget
  rcases hor : ((synthB block).graph.find? (fun ent => ent.1 = v)).map Prod.snd with _ | defs0
  · rw [hor, Option.none_or] at hget
    -- found among the appended prepare rows
    rcases hfind : ((synthB block).prepEdges.map (fun pd => (pd.1, [some pd.2]))).find?
        (fun ent => ent.1 = v) with _ | ent
    · rw [hfind] at hget
      exact absurd hget (by simp)
    · rw [hfind] at hget
      simp only [Option.map_some'] at hget
      have hdefs : defs = ent.2 := by
        injection hget with h
        exact h.symm
      have hkey : ent.1 = v := by simpa using List.find?_some hfind
      have hmem := List.mem_of_find?_eq_some hfind
      rcases List.mem_map.mp hmem with ⟨pd, hpd, hentdef⟩
      have hb := synth_prepEdges_bounds block pd hpd
      subst hdefs
      rw [← hentdef] at hslot hkey
      simp only at hslot hkey
      subst hkey
      match pos, hslot with
      | 0, hslot =>
        have : d = pd.2 := by
          injection hslot with h
          exact h.symm
        subst this
        left
        omega
      | pos + 1, hslot => exact absurd hslot (by simp [List.getD])
  · rw [hor, Option.or_some] at hget
    have hdefs : defs = defs0 := by
      injection hget with h
      exact h.symm
    rw [hdefs] at hslot
    exact slotBound_synthB block v defs0 pos d hor hslot

/-- C8: for every instruction with sources at offset `u`, the use-def graph
entry built by the forward walk has exactly one slot per source, positionally
aligned; slot `pos` holds the offset of the latest in-block write to source
`pos` strictly before `u`, or `None` if no such write exists (so an
instruction that reads and writes a temporary resolves the read to the
previous writer), and every `Some` slot is strictly below `u`.  Moreover, in
the final (post-synthesis) use-def graph every `Some` slot is either strictly
below its instruction offset or at least the original block length (a
synthesized `Prepare` offset). -/
theorem C8_use_def_graph_characterization (block : List Bytecode) (u : Nat)
    (hu : u < block.length) (hsrc : (block.getD u defaultInstr).sources ≠ []) :
    (∃ defs, graphGet (walk block).graph u = some defs ∧
      defs.length = (block.getD u defaultInstr).sources.length ∧
      (∀ pos, pos < defs.length →
        defs.getD pos none = latestWriteBefore block u (srcAt block u pos)) ∧
      (∀ pos d, defs.getD pos none = some d → d < u)) ∧
    (∀ v defs pos d, graphGet (useDefGraphOf block) v = some defs →
      defs.getD pos none = some d → d < v ∨ block.length ≤ d) := by
  constructor
  · refine ⟨(block.getD u defaultInstr).sources.map (latestWriteBefore block u), ?_, ?_, ?_, ?_⟩
    · rw [(walk_char block).2.1 u, if_pos ⟨hu, hsrc⟩]
    · simp
    · intro pos hpos
      simp only [List.length_map] at hpos
      rw [List.getD_eq_getElem _ _ (by simpa using hpos), List.getElem_map]
      unfold srcAt
      rw [List.getD_eq_getElem _ _ hpos]
    · intro pos d hslot
      by_cases hlt : pos < (block.getD u defaultInstr).sources.length
      · rw [List.getD_eq_getElem _ _ (by simpa using hlt), List.getElem_map] at hslot
        exact latestWriteBefore_lt hslot
      · rw [List.getD_eq_default _ _ (by simpa using Nat.le_of_not_lt hlt)] at hslot
        exact absurd hslot (by simp)
  · exact useDefGraphOf_slots block

set_option maxRecDepth 100000 in
theorem C8_witness :
    0 < exAddBlock.length ∧ (exAddBlock.getD 0 defaultInstr).sources ≠ [] ∧
    (∃ defs, graphGet (walk exAddBlock).graph 0 = some defs ∧
      defs.length = (exAddBlock.getD 0 defaultInstr).sources.length ∧
      (∀ pos, pos < defs.length →
        defs.getD pos none = latestWriteBefore exAddBlock 0 (srcAt exAddBlock 0 pos)) ∧
      (∀ pos d, defs.getD pos none = some d → d < 0)) :=
  ⟨by decide, by decide,
    (C8_use_def_graph_characterization exAddBlock 0 (by decide) (by decide)).1⟩

end InstrReorder
namespace InstrReorder

theorem self_ne_append_single {α : Type _} {l : List α} {x : α} : l ≠ l ++ [x] := by
  intro h
  have := congrArg List.length h
  simp at this

theorem append_single_inj {α : Type _} {l : List α} {x y : α}
    (h : l ++ [x] = l ++ [y]) : x = y := by
  have h2 := List.append_cancel_left h
  injection h2

theorem getD_set_self {α : Type _} :
    ∀ (l : List α) (i : Nat) (v d : α), i < l.length → (l.set i v).getD i d = v := by
  intro l
  induction l with
  | nil => intro i v d h; simp at h
  | cons x xs ih =>
    intro i v d h
    cases i with
    | zero => rfl
    | succ n => exact ih n v d (Nat.lt_of_succ_lt_succ h)

theorem getD_set_ne {α : Type _} :
    ∀ (l : List α) (i j : Nat) (v d : α), i ≠ j → (l.set i v).getD j d = l.getD j d := by
  intro l
  induction l with
  | nil => intro i j v d _; rfl
  | cons x xs ih =>
    intro i j v d h
    cases i with
    | zero =>
      cases j with
      | zero => exact absurd rfl h
      | succ m => rfl
    | succ n =>
      cases j with
      | zero => rfl
      | succ m => exact ih n m v d (fun he => h (by rw [he]))

theorem dfsStep_refl (a : DfsState) : DfsStep a a := by
  refine ⟨le_refl _, fun m h => h, fun m _ => rfl, fun m => Or.inl rfl, ?_⟩
  intro m1 m2 k1 k2 _ h1 _
  exact absurd h1 self_ne_append_single

/-- A row appended across a composition of two `DfsStep`s was appended in
exactly one of the two phases. -/
theorem dfsStep_append_cases {a b c : DfsState} (h1 : DfsStep a b) (h2 : DfsStep b c)
    {m k : Nat} (h : c.rows.getD m [] = a.rows.getD m [] ++ [some k]) :
    (b.rows.getD m [] = a.rows.getD m [] ++ [some k] ∧
      c.rows.getD m [] = b.rows.getD m [] ∧ a.num ≤ k ∧ k < b.num) ∨
    (b.rows.getD m [] = a.rows.getD m [] ∧
      c.rows.getD m [] = b.rows.getD m [] ++ [some k] ∧ b.num ≤ k ∧ k < c.num) := by
  rcases h1.2.2.2.1 m with hb | ⟨hmem1, k1, hk1a, hk1b, hb⟩
  · rcases h2.2.2.2.1 m with hc | ⟨_, k2, hk2a, hk2b, hc⟩
    · rw [hc, hb] at h
      exact absurd h self_ne_append_single
    · have heq : a.rows.getD m [] ++ [some k2] = a.rows.getD m [] ++ [some k] := by
        rw [← h, hc, hb]
      have hk : (some k2 : Option Nat) = some k := append_single_inj heq
      have hk2 : k2 = k := by injection hk
      subst hk2
      exact Or.inr ⟨hb, hc, hk2a, hk2b⟩
  · have hc : c.rows.getD m [] = b.rows.getD m [] := h2.2.2.1 m hmem1
    have heq : a.rows.getD m [] ++ [some k1] = a.rows.getD m [] ++ [some k] := by
      rw [← hb, ← hc, h]
    have hk : (some k1 : Option Nat) = some k := append_single_inj heq
    have hk1 : k1 = k := by injection hk
    subst hk1
    exact Or.inl ⟨hb, hc, hk1a, hk1b⟩

theorem dfsStep_trans {a b c : DfsState} (h1 : DfsStep a b) (h2 : DfsStep b c) :
    DfsStep a c := by
  refine ⟨le_trans h1.1 h2.1, fun m hm => h2.2.1 m (h1.2.1 m hm), ?_, ?_, ?_⟩
  · intro m hm
    rw [h2.2.2.1 m (h1.2.1 m hm), h1.2.2.1 m hm]
  · intro m
    rcases h1.2.2.2.1 m with hb | ⟨hmem1, k1, hk1a, hk1b, hb⟩
    · rcases h2.2.2.2.1 m with hc | ⟨hmem2, k2, hk2a, hk2b, hc⟩
      · exact Or.inl (by rw [hc, hb])
      · exact Or.inr ⟨hmem2, k2, le_trans h1.1 hk2a, hk2b, by rw [hc, hb]⟩
    · have hc : c.rows.getD m [] = b.rows.getD m [] := h2.2.2.1 m hmem1
      exact Or.inr ⟨h2.2.1 m hmem1, k1, hk1a, lt_of_lt_of_le hk1b h2.1,
        by rw [hc, hb]⟩
  · intro m1 m2 k1 k2 hne hm1 hm2
    rcases dfsStep_append_cases h1 h2 hm1 with
      ⟨hb1, _, _, hk1lt⟩ | ⟨_, hc1, hk1ge, _⟩ <;>
      rcases dfsStep_append_cases h1 h2 hm2 with
        ⟨hb2, _, _, hk2lt⟩ | ⟨_, hc2, hk2ge, _⟩
    · exact h1.2.2.2.2 m1 m2 k1 k2 hne hb1 hb2
    · exact Nat.ne_of_lt (lt_of_lt_of_le hk1lt hk2ge)
    · exact Nat.ne_of_gt (lt_of_lt_of_le hk2lt hk1ge)
    · exact h2.2.2.2.2 m1 m2 k1 k2 hne hc1 hc2

theorem dfsStep_append_bounds {a b : DfsState} (h : DfsStep a b) {m k : Nat}
    (hm : b.rows.getD m [] = a.rows.getD m [] ++ [some k]) :
    a.num ≤ k ∧ k < b.num := by
  rcases h.2.2.2.1 m with h0 | ⟨_, k', hk1, hk2, h1⟩
  · rw [h0] at hm
    exact absurd hm self_ne_append_single
  · have heq : a.rows.getD m [] ++ [some k'] = a.rows.getD m [] ++ [some k] := by
      rw [← h1, hm]
    have hk : (some k' : Option Nat) = some k := append_single_inj heq
    have hk' : k' = k := by injection hk
    subst hk'
    exact ⟨hk1, hk2⟩

/-- Composing the visit-marking, the recursive fold, and the final self-append
of `dfsRecurse` yields a `DfsStep` from the original state. -/
theorem dfsStep_of_phases (st st2 : DfsState) (node : Nat)
    (hnv : node ∉ st.visited)
    (h12 : DfsStep { st with visited := node :: st.visited } st2) :
    DfsStep st
      { st2 with
        rows := st2.rows.set node ((st2.rows.getD node []) ++ [some st2.num]),
        num := st2.num + 1 } := by
  have h01 : DfsStep st { st with visited := node :: st.visited } := by
    refine ⟨le_refl _, fun m hm => List.mem_cons_of_mem _ hm, fun m _ => rfl,
      fun m => Or.inl rfl, ?_⟩
    intro m1 m2 k1 k2 _ hm1 _
    exact absurd hm1 self_ne_append_single
  have h02 := dfsStep_trans h01 h12
  have hnode_mem : node ∈ st2.visited := h12.2.1 node (List.mem_cons_self _ _)
  have hnodefrozen : st2.rows.getD node [] = st.rows.getD node [] :=
    h12.2.2.1 node (List.mem_cons_self _ _)
  have hset_ne : ∀ m, m ≠ node →
      (st2.rows.set node ((st2.rows.getD node []) ++ [some st2.num])).getD m [] =
        st2.rows.getD m [] := by
    intro m hm
    exact getD_set_ne _ _ _ _ _ (fun he => hm he.symm)
  by_cases hinb : node < st2.rows.length
  · have hset_self :
        (st2.rows.set node ((st2.rows.getD node []) ++ [some st2.num])).getD node [] =
          st2.rows.getD node [] ++ [some st2.num] :=
      getD_set_self _ _ _ _ hinb
    have hnode3 :
        (st2.rows.set node ((st2.rows.getD node []) ++ [some st2.num])).getD node [] =
          st.rows.getD node [] ++ [some st2.num] := by
      rw [hset_self, hnodefrozen]
    refine ⟨le_trans h02.1 (Nat.le_succ _), h02.2.1, ?_, ?_, ?_⟩
    · intro m hm
      have hmne : m ≠ node := fun he => hnv (he ▸ hm)
      rw [hset_ne m hmne]
      exact h02.2.2.1 m hm
    · intro m
      by_cases hmn : m = node
      · subst hmn
        exact Or.inr ⟨hnode_mem, st2.num, h02.1, Nat.lt_succ_self _, hnode3⟩
      · rw [hset_ne m hmn]
        rcases h02.2.2.2.1 m with h | ⟨hm, k, ha, hb2, hr⟩
        · exact Or.inl h
        · exact Or.inr ⟨hm, k, ha, lt_trans hb2 (Nat.lt_succ_self _), hr⟩
    · intro m1 m2 k1 k2 hne hm1 hm2
      have hclass : ∀ m k, m ≠ node →
          (st2.rows.set node ((st2.rows.getD node []) ++ [some st2.num])).getD m [] =
            st.rows.getD m [] ++ [some k] →
          st2.rows.getD m [] = st.rows.getD m [] ++ [some k] := by
        intro m k hmn hm
        rw [hset_ne m hmn] at hm
        exact hm
      have hnodek : ∀ k,
          (st2.rows.set node ((st2.rows.getD node []) ++ [some st2.num])).getD node [] =
            st.rows.getD node [] ++ [some k] → k = st2.num := by
        intro k hk
        have heq : st.rows.getD node [] ++ [some k] =
            st.rows.getD node [] ++ [some st2.num] := by rw [← hk, hnode3]
        have h3 : (some k : Option Nat) = some st2.num := append_single_inj heq
        injection h3
      by_cases h1n : m1 = node
      · have h2n : m2 ≠ node := fun he => hne (h1n.trans he.symm)
        have hk1 : k1 = st2.num := hnodek k1 (h1n ▸ hm1)
        have hb2 := dfsStep_append_bounds h02 (hclass m2 k2 h2n hm2)
        rw [hk1]
        exact Nat.ne_of_gt hb2.2
      · by_cases h2n : m2 = node
        · have hk2 : k2 = st2.num := hnodek k2 (h2n ▸ hm2)
          have hb1 := dfsStep_append_bounds h02 (hclass m1 k1 h1n hm1)
          rw [hk2]
          exact Nat.ne_of_lt hb1.2
        · exact h02.2.2.2.2 m1 m2 k1 k2 hne
            (hclass m1 k1 h1n hm1) (hclass m2 k2 h2n hm2)
  · have hsetid :
        st2.rows.set node ((st2.rows.getD node []) ++ [some st2.num]) = st2.rows :=
      List.set_eq_of_length_le (le_of_not_lt hinb)
    refine ⟨le_trans h02.1 (Nat.le_succ _), h02.2.1, ?_, ?_, ?_⟩
    · intro m hm
      show (st2.rows.set node _).getD m [] = _
      rw [hsetid]
      exact h02.2.2.1 m hm
    · intro m
      show (st2.rows.set node _).getD m [] = _ ∨ _
      rw [hsetid]
      rcases h02.2.2.2.1 m with h | ⟨hm, k, ha, hb2, hr⟩
      · exact Or.inl h
      · exact Or.inr ⟨hm, k, ha, lt_trans hb2 (Nat.lt_succ_self _), hr⟩
    · intro m1 m2 k1 k2 hne hm1 hm2
      rw [show ({ st2 with
        rows := st2.rows.set node ((st2.rows.getD node []) ++ [some st2.num]),
        num := st2.num + 1 } : DfsState).rows = st2.rows.set node
          ((st2.rows.getD node []) ++ [some st2.num]) from rfl, hsetid] at hm1 hm2
      exact h02.2.2.2.2 m1 m2 k1 k2 hne hm1 hm2

/-- Folding DFS recursions over a dependence list is a `DfsStep`. -/
theorem dfsRecurse_fold_step (graph : UseDefGraph) (f : Nat)
    (ih : ∀ node st, DfsStep st (dfsRecurse graph f node st)) :
    ∀ (l : List Nat) (s : DfsState),
      DfsStep s (l.foldl (fun s d => dfsRecurse graph f d s) s) := by
  intro l s
  refine foldl_inv (σ := DfsState) (fun t => DfsStep s t) _ _ _ (dfsStep_refl s) ?_
  intro t d ht _
  exact dfsStep_trans ht (ih d t)

/-- Every DFS recursion is a `DfsStep` from its starting state. -/
theorem dfsRecurse_dfsStep (graph : UseDefGraph) :
    ∀ (fuel node : Nat) (st : DfsState), DfsStep st (dfsRecurse graph fuel node st) := by
  intro fuel
  induction fuel with
  | zero => intro node st; exact dfsStep_refl st
  | succ f ih =>
    intro node st
    rw [dfsRecurse]
    split
    · exact dfsStep_refl st
    · next hv =>
      have hnv : node ∉ st.visited := by simpa using hv
      exact dfsStep_of_phases st _ node hnv (dfsRecurse_fold_step graph f ih _ _)

theorem dfsFold_rows_length (graph : UseDefGraph) (f : Nat) :
    ∀ (l : List Nat) (s : DfsState),
      ((l.foldl (fun s d => dfsRecurse graph f d s) s).rows).length = s.rows.length := by
  intro l
  induction l with
  | nil => intro s; rfl
  | cons d ds ihl => intro s; rw [List.foldl_cons, ihl, dfsRecurse_rows_length]

/-- The final self-append of a DFS run, read off the record form. -/
theorem dfs_record_seed (st st2 : DfsState) (node : Nat)
    (hfrozen : st2.rows.getD node [] = st.rows.getD node [])
    (hlen2 : node < st2.rows.length) :
    ∃ k, (⟨st2.visited,
        st2.rows.set node ((st2.rows.getD node []) ++ [some st2.num]),
        st2.num + 1⟩ : DfsState).rows.getD node [] =
      st.rows.getD node [] ++ [some k] :=
  ⟨st2.num, by
    show (st2.rows.set node ((st2.rows.getD node []) ++ [some st2.num])).getD node [] = _
    rw [getD_set_self _ _ _ _ hlen2, hfrozen]⟩

/-- A fresh in-bounds seed always gets a number appended by its DFS run. -/
theorem dfsRecurse_seed (graph : UseDefGraph) (f node : Nat) (st : DfsState)
    (hnv : node ∉ st.visited) (hlen : node < st.rows.length) :
    ∃ k, (dfsRecurse graph (f + 1) node st).rows.getD node [] =
      st.rows.getD node [] ++ [some k] := by
  rw [dfsRecurse]
  rw [if_neg (by simpa using hnv)]
  have h12 : DfsStep { st with visited := node :: st.visited }
      ((((graphGet graph node).getD []).filterMap id).foldl
        (fun s d => dfsRecurse graph f d s) { st with visited := node :: st.visited }) :=
    dfsRecurse_fold_step graph f (dfsRecurse_dfsStep graph f) _ _
  have hnodefrozen :
      ((((graphGet graph node).getD []).filterMap id).foldl
        (fun s d => dfsRecurse graph f d s)
          { st with visited := node :: st.visited }).rows.getD node [] =
        st.rows.getD node [] :=
    h12.2.2.1 node (List.mem_cons_self _ _)
  have hlen2 : node <
      ((((graphGet graph node).getD []).filterMap id).foldl
        (fun s d => dfsRecurse graph f d s)
          { st with visited := node :: st.visited }).rows.length := by
    rw [dfsFold_rows_length]
    exact hlen
  exact dfs_record_seed st _ node hnodefrozen hlen2

theorem getD_map_lt {α β : Type _} (f : α → β) :
    ∀ (l : List α) (m : Nat) (d : β) (d' : α), m < l.length →
      (l.map f).getD m d = f (l.getD m d') := by
  intro l
  induction l with
  | nil => intro m d d' h; simp at h
  | cons x xs ih =>
    intro m d d' h
    cases m with
    | zero => rfl
    | succ n => exact ih n d d' (Nat.lt_of_succ_lt_succ h)

theorem getD_append_lt {α : Type _} :
    ∀ (l t : List α) (i : Nat) (d : α), i < l.length →
      (l ++ t).getD i d = l.getD i d := by
  intro l
  induction l with
  | nil => intro t i d h; simp at h
  | cons x xs ih =>
    intro t i d h
    cases i with
    | zero => rfl
    | succ n => exact ih t n d (Nat.lt_of_succ_lt_succ h)

theorem getD_append_at {α : Type _} :
    ∀ (l : List α) (x : α) (d : α), (l ++ [x]).getD l.length d = x := by
  intro l
  induction l with
  | nil => intro x d; rfl
  | cons y ys ih => intro x d; exact ih x d

theorem getD_of_length_le {α : Type _} :
    ∀ (l : List α) (i : Nat) (d : α), l.length ≤ i → l.getD i d = d := by
  intro l
  induction l with
  | nil => intro i d _; rfl
  | cons x xs ih =>
    intro i d h
    cases i with
    | zero => simp at h
    | succ n => exact ih n d (Nat.le_of_succ_le_succ h)

/-- One seeded DFS run followed by `None` padding preserves row alignment and
columnwise distinctness. -/
theorem dfsRunStep_aligned (graph : UseDefGraph) (n : Nat)
    (acc : List Nat × List (List (Option Nat))) (oi : Nat × Bytecode)
    (hoi : oi.1 < n) (h : ColumnsAligned n acc.2) :
    ColumnsAligned n (dfsRunStep graph n acc oi).2 := by
  obtain ⟨hlen, ⟨L, hL⟩, hcol⟩ := h
  unfold dfsRunStep
  split
  · have hstep : DfsStep ⟨[], acc.2, 0⟩ (dfsRecurse graph (n + 1) oi.1 ⟨[], acc.2, 0⟩) :=
      dfsRecurse_dfsStep graph (n + 1) oi.1 _
    have hrowslen : (dfsRecurse graph (n + 1) oi.1 ⟨[], acc.2, 0⟩).rows.length = n := by
      rw [dfsRecurse_rows_length]
      exact hlen
    obtain ⟨kseed, hseed0⟩ :=
      dfsRecurse_seed graph n oi.1 ⟨[], acc.2, 0⟩ (by simp) (by simpa [hlen] using hoi)
    have hseed : (dfsRecurse graph (n + 1) oi.1 ⟨[], acc.2, 0⟩).rows.getD oi.1 [] =
        acc.2.getD oi.1 [] ++ [some kseed] := hseed0
    have hseedlen :
        ((dfsRecurse graph (n + 1) oi.1 ⟨[], acc.2, 0⟩).rows.getD oi.1 []).length =
          L + 1 := by
      rw [hseed, List.length_append, hL oi.1 hoi]
      rfl
    have hrow : ∀ m, m < n →
        (dfsRecurse graph (n + 1) oi.1 ⟨[], acc.2, 0⟩).rows.getD m [] = acc.2.getD m [] ∨
        ∃ k, (dfsRecurse graph (n + 1) oi.1 ⟨[], acc.2, 0⟩).rows.getD m [] =
          acc.2.getD m [] ++ [some k] := by
      intro m _
      rcases hstep.2.2.2.1 m with h0 | ⟨_, k, _, _, hk⟩
      · exact Or.inl h0
      · exact Or.inr ⟨k, hk⟩
    have hpad : ∀ m, m < n →
        ((dfsRecurse graph (n + 1) oi.1 ⟨[], acc.2, 0⟩).rows.map
          (fun r =>
            if r.length <
                ((dfsRecurse graph (n + 1) oi.1 ⟨[], acc.2, 0⟩).rows.getD oi.1 []).length
              then r ++ [none] else r)).getD m [] =
          (if ((dfsRecurse graph (n + 1) oi.1 ⟨[], acc.2, 0⟩).rows.getD m []).length <
              ((dfsRecurse graph (n + 1) oi.1 ⟨[], acc.2, 0⟩).rows.getD oi.1 []).length
            then (dfsRecurse graph (n + 1) oi.1 ⟨[], acc.2, 0⟩).rows.getD m [] ++ [none]
            else (dfsRecurse graph (n + 1) oi.1 ⟨[], acc.2, 0⟩).rows.getD m []) := by
      intro m hm
      exact getD_map_lt _ _ _ _ [] (by rw [hrowslen]; exact hm)
    have hrowval : ∀ m, m < n →
        ((dfsRecurse graph (n + 1) oi.1 ⟨[], acc.2, 0⟩).rows.map
          (fun r =>
            if r.length <
                ((dfsRecurse graph (n + 1) oi.1 ⟨[], acc.2, 0⟩).rows.getD oi.1 []).length
              then r ++ [none] else r)).getD m [] = acc.2.getD m [] ++ [none] ∨
        ∃ k, ((dfsRecurse graph (n + 1) oi.1 ⟨[], acc.2, 0⟩).rows.map
          (fun r =>
            if r.length <
                ((dfsRecurse graph (n + 1) oi.1 ⟨[], acc.2, 0⟩).rows.getD oi.1 []).length
              then r ++ [none] else r)).getD m [] = acc.2.getD m [] ++ [some k] ∧
          (dfsRecurse graph (n + 1) oi.1 ⟨[], acc.2, 0⟩).rows.getD m [] =
            acc.2.getD m [] ++ [some k] := by
      intro m hm
      rw [hpad m hm]
      rcases hrow m hm with h0 | ⟨k, hk⟩
      · left
        rw [h0, hseedlen, if_pos (by rw [hL m hm]; exact Nat.lt_succ_self _)]
      · right
        refine ⟨k, ?_, hk⟩
        rw [hk, hseedlen,
          if_neg (by rw [List.length_append, hL m hm]; exact lt_irrefl _)]
    refine ⟨by simpa using hrowslen, ⟨L + 1, ?_⟩, ?_⟩
    · intro m hm
      rcases hrowval m hm with h0 | ⟨k, hk, _⟩
      · rw [h0, List.length_append, hL m hm]
        rfl
      · rw [hk, List.length_append, hL m hm]
        rfl
    · intro col m1 m2 k1 k2 hm1 hm2 hne hv1 hv2
      rcases Nat.lt_trichotomy col L with hcl | hcl | hcl
      · -- values come from the old rows
        have hold : ∀ m k, m < n →
            (((dfsRecurse graph (n + 1) oi.1 ⟨[], acc.2, 0⟩).rows.map
              (fun r =>
                if r.length <
                    ((dfsRecurse graph (n + 1) oi.1
                      ⟨[], acc.2, 0⟩).rows.getD oi.1 []).length
                  then r ++ [none] else r)).getD m []).getD col none = some k →
            (acc.2.getD m []).getD col none = some k := by
          intro m k hm hv
          rcases hrowval m hm with h0 | ⟨k', hk', _⟩
          · rw [h0, getD_append_lt _ _ _ _ (by rw [hL m hm]; exact hcl)] at hv
            exact hv
          · rw [hk', getD_append_lt _ _ _ _ (by rw [hL m hm]; exact hcl)] at hv
            exact hv
        exact hcol col m1 m2 k1 k2 hm1 hm2 hne (hold m1 k1 hm1 hv1) (hold m2 k2 hm2 hv2)
      · -- the freshly appended column
        have hnewcol : ∀ m k, m < n →
            (((dfsRecurse graph (n + 1) oi.1 ⟨[], acc.2, 0⟩).rows.map
              (fun r =>
                if r.length <
                    ((dfsRecurse graph (n + 1) oi.1
                      ⟨[], acc.2, 0⟩).rows.getD oi.1 []).length
                  then r ++ [none] else r)).getD m []).getD col none = some k →
            (dfsRecurse graph (n + 1) oi.1 ⟨[], acc.2, 0⟩).rows.getD m [] =
              acc.2.getD m [] ++ [some k] := by
          intro m k hm hv
          have hcl' : col = (acc.2.getD m []).length := hcl.trans (hL m hm).symm
          rcases hrowval m hm with h0 | ⟨k', hk', hrec⟩
          · rw [h0, hcl', getD_append_at] at hv
            cases hv
          · rw [hk', hcl', getD_append_at] at hv
            have hkk : k' = k := by injection hv
            rw [← hkk]
            exact hrec
        exact hstep.2.2.2.2 m1 m2 k1 k2 hne
          (hnewcol m1 k1 hm1 hv1) (hnewcol m2 k2 hm2 hv2)
      · -- past the end of every padded row
        exfalso
        have hv1' := hv1
        rcases hrowval m1 hm1 with h0 | ⟨k', hk', _⟩
        · rw [h0, getD_of_length_le _ _ _
            (by rw [List.length_append, hL m1 hm1]; exact hcl)] at hv1'
          cases hv1'
        · rw [hk', getD_of_length_le _ _ _
            (by rw [List.length_append, hL m1 hm1]; exact hcl)] at hv1'
          cases hv1'
  · exact ⟨hlen, ⟨L, hL⟩, hcol⟩

theorem getD_replicate_nil {α : Type _} :
    ∀ (k m : Nat), (List.replicate k ([] : List α)).getD m [] = [] := by
  intro k
  induction k with
  | zero => intro m; rfl
  | succ n ih =>
    intro m
    cases m with
    | zero => rfl
    | succ m2 => exact ih m2

/-- The numbering rows of `dfs_post_order_numbering` are aligned and
columnwise distinct. -/
theorem dfs_numbering_aligned (block : List Bytecode) (graph : UseDefGraph) :
    ColumnsAligned block.length (dfs_post_order_numbering block graph) := by
  unfold dfs_post_order_numbering
  refine foldl_inv (σ := List Nat × List (List (Option Nat)))
    (fun acc => ColumnsAligned block.length acc.2) _ _ _ ?_ ?_
  · refine ⟨by simp, ⟨0, ?_⟩, ?_⟩
    · intro m hm
      rw [show (([], List.replicate block.length ([] : List (Option Nat))) :
          List Nat × List (List (Option Nat))).2 = List.replicate block.length [] from rfl,
        getD_replicate_nil]
      rfl
    · intro col m1 m2 k1 k2 hm1 _ _ hv1 _
      rw [show (([], List.replicate block.length ([] : List (Option Nat))) :
          List Nat × List (List (Option Nat))).2 = List.replicate block.length [] from rfl,
        getD_replicate_nil] at hv1
      simp at hv1
  · intro acc oi hacc hmem
    exact dfsRunStep_aligned graph block.length acc oi
      (fst_lt_of_mem_enum (List.mem_reverse.mp hmem)) hacc

theorem firstBothSome_spec :
    ∀ (l1 l2 : List (Option Nat)) (x y : Nat),
      firstBothSome l1 l2 = some (x, y) →
      ∃ col, l1.getD col none = some x ∧ l2.getD col none = some y := by
  intro l1
  induction l1 with
  | nil =>
    intro l2 x y h
    cases l2 with
    | nil => cases h
    | cons b ys => cases h
  | cons a xs ih =>
    intro l2 x y h
    cases l2 with
    | nil => cases a <;> cases h
    | cons b ys =>
      cases a with
      | some av =>
        cases b with
        | some bv =>
          have h2 : (av, bv) = (x, y) := Option.some.inj h
          have hx : av = x := congrArg Prod.fst h2
          have hy : bv = y := congrArg Prod.snd h2
          subst hx; subst hy
          exact ⟨0, rfl, rfl⟩
        | none =>
          obtain ⟨col, h1, h2⟩ := ih ys x y h
          exact ⟨col + 1, h1, h2⟩
      | none =>
        obtain ⟨col, h1, h2⟩ := ih ys x y h
        exact ⟨col + 1, h1, h2⟩

/-- C9: after `dfs_post_order_numbering`, all per-instruction numbering rows
have the same length, and whenever the comparator finds a first column in
which two rows are both `Some`, the two numbers differ, so the comparator's
equal-numbers assertion can never fail. -/
theorem C9_dfs_numbering_aligned_distinct (block : List Bytecode) (graph : UseDefGraph) :
    (∀ i j, i < block.length → j < block.length →
      ((dfs_post_order_numbering block graph).getD i []).length =
        ((dfs_post_order_numbering block graph).getD j []).length) ∧
    (∀ i j x y, i < block.length → j < block.length → i ≠ j →
      firstBothSome ((dfs_post_order_numbering block graph).getD i [])
        ((dfs_post_order_numbering block graph).getD j []) = some (x, y) →
      x ≠ y) := by
  obtain ⟨-, ⟨L, hL⟩, hcol⟩ := dfs_numbering_aligned block graph
  constructor
  · intro i j hi hj
    rw [hL i hi, hL j hj]
  · intro i j x y hi hj hne hf
    obtain ⟨col, h1, h2⟩ := firstBothSome_spec _ _ _ _ hf
    exact hcol col i j x y hi hj hne h1 h2

set_option maxRecDepth 100000 in
theorem C9_witness :
    firstBothSome
        ((dfs_post_order_numbering exSeedBlock (useDefGraphOf exSeedBlock)).getD 0 [])
        ((dfs_post_order_numbering exSeedBlock (useDefGraphOf exSeedBlock)).getD 1 []) =
      some (0, 1) ∧ (0 : Nat) ≠ 1 :=
  ⟨by decide,
    (C9_dfs_numbering_aligned_distinct exSeedBlock (useDefGraphOf exSeedBlock)).2
      0 1 0 1 (by decide) (by decide) (by decide) (by decide)⟩

end InstrReorder
namespace InstrReorder

/-!  Characterization of the `Prepare` synthesis phases. -/

theorem range'_snoc (s n : Nat) : List.range' s (n+1) = List.range' s n ++ [s+n] := by
  have h : List.range' s (n+1) 1 = List.range' s n 1 ++ [s + 1*n] := List.range'_concat s n
  simpa using h

theorem range'_one_nodup : ∀ (n s : Nat), (List.range' s n).Nodup := by
  intro n
  induction n with
  | zero => intro s; exact List.nodup_nil
  | succ m ih =>
    intro s
    rw [List.range'_succ]
    refine List.Nodup.cons ?_ (ih (s+1))
    intro hmem
    have := (List.mem_range'_1.mp hmem).1
    omega

theorem eq_of_fst_eq_of_nodup_keys {β : Type _} :
    ∀ (l : List (Nat × β)), (l.map Prod.fst).Nodup →
      ∀ e1 ∈ l, ∀ e2 ∈ l, e1.1 = e2.1 → e1 = e2 := by
  intro l
  induction l with
  | nil => intro _ e1 h1; cases h1
  | cons a t ih =>
    intro hnd e1 h1 e2 h2 hk
    rw [List.map_cons] at hnd
    have hnd2 := List.nodup_cons.mp hnd
    rcases List.mem_cons.mp h1 with rfl | h1t
    · rcases List.mem_cons.mp h2 with rfl | h2t
      · rfl
      · exact absurd (hk ▸ List.mem_map_of_mem Prod.fst h2t) hnd2.1
    · rcases List.mem_cons.mp h2 with rfl | h2t
      · exact absurd (hk ▸ List.mem_map_of_mem Prod.fst h1t) hnd2.1
      · exact ih hnd2.2 e1 h1t e2 h2t hk

theorem getD_some_lt_length {α : Type _} {l : List α} {pos : Nat} {d : α}
    (hne : l.getD pos d ≠ d) : pos < l.length := by
  by_contra hge
  rw [getD_of_length_le _ _ _ (Nat.le_of_not_lt hge)] at hne
  exact hne rfl

theorem getD_none_mem {l : List (Option Nat)} {pos : Nat} {p : Nat}
    (h : l.getD pos none = some p) : some p ∈ l := by
  have hlt : pos < l.length := by
    by_contra hge
    rw [getD_of_length_le _ _ _ (Nat.le_of_not_lt hge)] at h
    cases h
  rw [List.getD_eq_getElem _ _ hlt] at h
  rw [← h]
  exact List.getElem_mem hlt

/-- A `some` walk slot points strictly below its in-block use. -/
theorem walkSlot_lt {block : List Bytecode} {u pos d : Nat}
    (h : walkSlot block u pos = some d) :
    d < u ∧ u < block.length ∧
      pos < (block.getD u defaultInstr).sources.length := by
  unfold walkSlot slotOf at h
  rw [(walk_char block).2.1 u] at h
  split at h
  · next hc =>
    simp only [Option.getD_some] at h
    have hlt : pos < ((block.getD u defaultInstr).sources.map
        (latestWriteBefore block u)).length := by
      by_contra hge
      rw [getD_of_length_le _ _ _ (Nat.le_of_not_lt hge)] at h
      cases h
    rw [List.getD_eq_getElem _ _ hlt, List.getElem_map] at h
    refine ⟨latestWriteBefore_lt h, hc.1, by simpa using hlt⟩
  · simp only [Option.getD_none] at h
    cases h

/-- For an in-range slot the walk records exactly `latestWriteBefore`. -/
theorem walkSlot_eq (block : List Bytecode) (u pos : Nat)
    (hu : u < block.length)
    (hpos : pos < (block.getD u defaultInstr).sources.length) :
    walkSlot block u pos = latestWriteBefore block u (srcAt block u pos) := by
  unfold walkSlot slotOf
  have hne : (block.getD u defaultInstr).sources ≠ [] := by
    intro hnil
    rw [hnil] at hpos
    cases hpos
  rw [(walk_char block).2.1 u, if_pos ⟨hu, hne⟩]
  simp only [Option.getD_some]
  rw [getD_map_lt _ _ _ _ 0 hpos]
  rfl

/-- A graph key of the walk names an in-block use with sources. -/
theorem walk_graph_some {block : List Bytecode} {u : Nat}
    (h : (graphGet (walk block).graph u).isSome = true) :
    u < block.length ∧ (block.getD u defaultInstr).sources ≠ [] := by
  rw [(walk_char block).2.1 u] at h
  split at h
  · next hc => exact hc
  · cases h

theorem walk_graph_some_of (block : List Bytecode) (u : Nat)
    (hu : u < block.length) (hsrc : (block.getD u defaultInstr).sources ≠ []) :
    (graphGet (walk block).graph u).isSome = true := by
  rw [(walk_char block).2.1 u, if_pos ⟨hu, hsrc⟩]
  rfl

/-- Derived: pum keys are at least the block length. -/
theorem synthInv_key_ge {block : List Bytecode} {s : SynthState}
    (h : SynthInv block s) : ∀ e ∈ s.pum, block.length ≤ e.1 := by
  intro e he
  have hk : e.1 ∈ s.pum.map (fun e => e.1) := List.mem_map_of_mem _ he
  rw [h.1] at hk
  exact (List.mem_range'_1.mp hk).1

/-- Derived: entries with equal keys are equal. -/
theorem synthInv_entry_eq {block : List Bytecode} {s : SynthState}
    (h : SynthInv block s) :
    ∀ e1 ∈ s.pum, ∀ e2 ∈ s.pum, e1.1 = e2.1 → e1 = e2 := by
  have hnd : (s.pum.map (fun e => e.1)).Nodup := by
    rw [h.1]
    exact range'_one_nodup _ _
  exact eq_of_fst_eq_of_nodup_keys s.pum hnd

/-- Derived: a slot holding an offset at or beyond the block length belongs
to the prepare-use entry keyed by that offset. -/
theorem synthInv_slot_entry {block : List Bytecode} {s : SynthState}
    (h : SynthInv block s) {u pos p : Nat}
    (hp : slotOf s.graph u pos = some p) (hge : block.length ≤ p) :
    ∃ e ∈ s.pum, e.1 = p ∧ e.2.1 = u ∧ e.2.2.1 = pos := by
  rcases h.2.2.2.1 u pos with ⟨e, he, hu, hpos⟩ | hws
  · have hc := h.2.1 e he
    rw [hu, hpos, hp] at hc
    have : e.1 = p := by injection hc with h2; exact h2.symm
    exact ⟨e, he, this, hu, hpos⟩
  · rw [hws] at hp
    have := (walkSlot_lt hp).1
    have := (walkSlot_lt hp).2.1
    omega

/-- Derived: at most one entry per `(use, position)` pair. -/
theorem synthInv_pair_unique {block : List Bytecode} {s : SynthState}
    (h : SynthInv block s) :
    ∀ e1 ∈ s.pum, ∀ e2 ∈ s.pum, e1.2.1 = e2.2.1 → e1.2.2.1 = e2.2.2.1 → e1 = e2 := by
  intro e1 h1 e2 h2 hu hpos
  have hc1 := h.2.1 e1 h1
  have hc2 := h.2.1 e2 h2
  rw [hu, hpos, hc2] at hc1
  have hk : e2.1 = e1.1 := Option.some.inj hc1
  exact synthInv_entry_eq h e1 h1 e2 h2 hk.symm

theorem slotOf_updateSlot_ne (g : UseDefGraph) (uo pos p u2 pos2 : Nat)
    (hne : u2 ≠ uo ∨ pos2 ≠ pos) :
    slotOf (updateSlot g uo pos p) u2 pos2 = slotOf g u2 pos2 := by
  unfold slotOf
  rw [graphGet_updateSlot]
  rcases hne with hne | hne
  · rw [if_neg hne]
  · by_cases hu : u2 = uo
    · rw [if_pos hu]
      rcases hg : graphGet g u2 with _ | defs
      · rfl
      · simp only [Option.map_some', Option.getD_some]
        exact getD_set_ne _ _ _ _ _ (fun he => hne he.symm)
    · rw [if_neg hu]

theorem slotOf_updateSlot_self {g : UseDefGraph} {uo pos p : Nat} {defs : List (Option Nat)}
    (hg : graphGet g uo = some defs) (hpos : pos < defs.length) :
    slotOf (updateSlot g uo pos p) uo pos = some p := by
  unfold slotOf
  rw [graphGet_updateSlot, if_pos rfl, hg]
  simp only [Option.map_some', Option.getD_some]
  exact getD_set_self _ _ _ _ hpos

end InstrReorder

namespace InstrReorder

/-- Appending a fresh `Prepare` entry and redirecting the prepared slot to it
preserves the synthesis invariant (shared by the three creating branches). -/
theorem synthInv_create {block : List Bytecode} {s : SynthState} {uo pos : Nat}
    (h : SynthInv block s) (huo : uo < block.length)
    (hpos : pos + 1 < (block.getD uo defaultInstr).sources.length)
    (hno : ¬ ∃ e ∈ s.pum, e.2.1 = uo ∧ e.2.2.1 = pos)
    (hreq : needsA block uo pos ∨ multiUseSlot block uo pos)
    (b0 : Bytecode) (pe : List (Nat × Nat)) (flag : Bool) :
    SynthInv block
      ⟨updateSlot s.graph uo pos (block.length + s.preps.length),
       s.preps ++ [b0], pe,
       s.pum ++ [(block.length + s.preps.length, uo, pos, flag)]⟩ := by
  have hsrc : (block.getD uo defaultInstr).sources ≠ [] := by
    intro hnil
    rw [hnil] at hpos
    simp at hpos
  have hwk : (graphGet (walk block).graph uo).isSome = true :=
    walk_graph_some_of block uo huo hsrc
  have hsome : (graphGet s.graph uo).isSome = true := by
    rw [h.2.2.2.2.1 uo]
    exact hwk
  obtain ⟨defs, hdefs⟩ := Option.isSome_iff_exists.mp hsome
  have hlen : defs.length = (block.getD uo defaultInstr).sources.length :=
    h.2.2.2.2.2.1 uo defs hdefs
  have hposlen : pos < defs.length := by omega
  have hself : slotOf (updateSlot s.graph uo pos (block.length + s.preps.length)) uo pos =
      some (block.length + s.preps.length) :=
    slotOf_updateSlot_self hdefs hposlen
  have hkeep : ∀ u2 pos2, (u2 ≠ uo ∨ pos2 ≠ pos) →
      slotOf (updateSlot s.graph uo pos (block.length + s.preps.length)) u2 pos2 =
        slotOf s.graph u2 pos2 :=
    fun u2 pos2 hne => slotOf_updateSlot_ne _ _ _ _ _ _ hne
  refine ⟨?_, ?_, ?_, ?_, ?_, ?_, ?_⟩
  · show (s.pum ++ [(block.length + s.preps.length, uo, pos, flag)]).map (fun e => e.1) =
      List.range' block.length (s.preps ++ [b0]).length
    rw [List.map_append, h.1, List.length_append, List.length_singleton, range'_snoc]
    rfl
  · intro e he
    rcases List.mem_append.mp he with hold | hnew
    · have hne2 : e.2.1 ≠ uo ∨ e.2.2.1 ≠ pos := by
        by_contra hcon
        push_neg at hcon
        exact hno ⟨e, hold, hcon.1, hcon.2⟩
      show slotOf (updateSlot s.graph uo pos (block.length + s.preps.length))
        e.2.1 e.2.2.1 = some e.1
      rw [hkeep _ _ hne2]
      exact h.2.1 e hold
    · rcases List.mem_singleton.mp hnew with rfl
      exact hself
  · intro e he
    rcases List.mem_append.mp he with hold | hnew
    · exact h.2.2.1 e hold
    · rcases List.mem_singleton.mp hnew with rfl
      exact ⟨huo, hpos, hreq⟩
  · intro u2 pos2
    by_cases hc : u2 = uo ∧ pos2 = pos
    · left
      exact ⟨(block.length + s.preps.length, uo, pos, flag),
        List.mem_append_right _ (List.mem_singleton_self _), hc.1.symm, hc.2.symm⟩
    · have hne2 : u2 ≠ uo ∨ pos2 ≠ pos := by
        by_cases h1 : u2 = uo
        · right; exact fun h2 => hc ⟨h1, h2⟩
        · left; exact h1
      rcases h.2.2.2.1 u2 pos2 with ⟨e, he, h1, h2⟩ | hws
      · left
        exact ⟨e, List.mem_append_left _ he, h1, h2⟩
      · right
        show slotOf (updateSlot s.graph uo pos (block.length + s.preps.length))
          u2 pos2 = walkSlot block u2 pos2
        rw [hkeep _ _ hne2]
        exact hws
  · intro u2
    show (graphGet (updateSlot s.graph uo pos (block.length + s.preps.length)) u2).isSome = _
    rw [graphGet_updateSlot]
    by_cases hu2 : u2 = uo
    · rw [if_pos hu2, hu2, hdefs]
      simp only [Option.map_some', Option.isSome_some]
      exact hwk.symm
    · rw [if_neg hu2]
      exact h.2.2.2.2.1 u2
  · intro u2 l hl
    show l.length = _
    rw [graphGet_updateSlot] at hl
    by_cases hu2 : u2 = uo
    · rw [if_pos hu2, hu2, hdefs] at hl
      simp only [Option.map_some'] at hl
      have hleq : l = defs.set pos (some (block.length + s.preps.length)) := by
        injection hl with h2
        exact h2.symm
      rw [hleq, List.length_set, hlen, hu2]
    · rw [if_neg hu2] at hl
      exact h.2.2.2.2.2.1 u2 l hl
  · intro u2 pos2 q hq
    show q < block.length + (s.preps ++ [b0]).length
    rw [List.length_append, List.length_singleton]
    by_cases hc : u2 = uo ∧ pos2 = pos
    · rw [hc.1, hc.2, hself] at hq
      have : block.length + s.preps.length = q := Option.some.inj hq
      omega
    · have hne2 : u2 ≠ uo ∨ pos2 ≠ pos := by
        by_cases h1 : u2 = uo
        · right; exact fun h2 => hc ⟨h1, h2⟩
        · left; exact h1
      rw [hkeep _ _ hne2] at hq
      have := h.2.2.2.2.2.2 u2 pos2 q hq
      omega

/-- Flipping multi-use flags in place preserves the synthesis invariant. -/
theorem synthInv_flagmap {block : List Bytecode} {s : SynthState} {d : Nat}
    (h : SynthInv block s) :
    SynthInv block { s with
      pum := s.pum.map (fun e => if e.1 = d then (e.1, e.2.1, e.2.2.1, true) else e) } := by
  have hfst : ∀ e : Nat × Nat × Nat × Bool,
      (if e.1 = d then (e.1, e.2.1, e.2.2.1, true) else e).1 = e.1 := by
    intro e; split <;> rfl
  have hu21 : ∀ e : Nat × Nat × Nat × Bool,
      (if e.1 = d then (e.1, e.2.1, e.2.2.1, true) else e).2.1 = e.2.1 := by
    intro e; split <;> rfl
  have hp21 : ∀ e : Nat × Nat × Nat × Bool,
      (if e.1 = d then (e.1, e.2.1, e.2.2.1, true) else e).2.2.1 = e.2.2.1 := by
    intro e; split <;> rfl
  refine ⟨?_, ?_, ?_, ?_, h.2.2.2.2.1, h.2.2.2.2.2.1, h.2.2.2.2.2.2⟩
  · show ((s.pum.map (fun e => if e.1 = d then (e.1, e.2.1, e.2.2.1, true) else e)).map
      (fun e => e.1)) = List.range' block.length s.preps.length
    rw [List.map_map]
    have : s.pum.map ((fun e : Nat × Nat × Nat × Bool => e.1) ∘
        (fun e => if e.1 = d then (e.1, e.2.1, e.2.2.1, true) else e)) =
        s.pum.map (fun e => e.1) :=
      List.map_congr_left (fun e _ => hfst e)
    rw [this, h.1]
  · intro e' he'
    rcases List.mem_map.mp he' with ⟨e, he, rfl⟩
    show slotOf s.graph _ _ = _
    rw [hu21, hp21, hfst]
    exact h.2.1 e he
  · intro e' he'
    rcases List.mem_map.mp he' with ⟨e, he, rfl⟩
    rw [hu21, hp21]
    exact h.2.2.1 e he
  · intro u2 pos2
    rcases h.2.2.2.1 u2 pos2 with ⟨e, he, h1, h2⟩ | hws
    · left
      refine ⟨(if e.1 = d then (e.1, e.2.1, e.2.2.1, true) else e),
        List.mem_map_of_mem _ he, ?_, ?_⟩
      · rw [hu21, h1]
      · rw [hp21, h2]
    · right
      exact hws

/-- Phase A at one slot preserves the synthesis invariant. -/
theorem synthInv_phaseAslot {block : List Bytecode} {uo : Nat} {s : SynthState} {pos : Nat}
    (h : SynthInv block s) (huo : uo < block.length)
    (hpos : pos + 1 < (block.getD uo defaultInstr).sources.length) :
    SynthInv block (phaseAslot block uo s pos) := by
  unfold phaseAslot
  split
  · next hm =>
    have hm' : slotOf s.graph uo pos = none := hm
    have hno : ¬ ∃ e ∈ s.pum, e.2.1 = uo ∧ e.2.2.1 = pos := by
      rintro ⟨e, he, h1, h2⟩
      have hc := h.2.1 e he
      rw [h1, h2, hm'] at hc
      cases hc
    have hreq : needsA block uo pos ∨ multiUseSlot block uo pos := by
      left
      left
      rcases h.2.2.2.1 uo pos with hex | hws
      · exact absurd hex hno
      · rw [← hws]
        exact hm'
    exact synthInv_create h huo hpos hno hreq _ _ _
  · next d hm =>
    split
    · next hassign =>
      have hm' : slotOf s.graph uo pos = some d := hm
      have hno : ¬ ∃ e ∈ s.pum, e.2.1 = uo ∧ e.2.2.1 = pos := by
        rintro ⟨e, he, h1, h2⟩
        have hc := h.2.1 e he
        rw [h1, h2, hm'] at hc
        have hde : d = e.1 := Option.some.inj hc
        have hge := synthInv_key_ge h e he
        have hdn : d < block.length := by
          by_contra hge2
          rw [List.getD_eq_default _ _ (Nat.le_of_not_lt hge2)] at hassign
          exact absurd hassign (by decide)
        omega
      have hreq : needsA block uo pos ∨ multiUseSlot block uo pos := by
        left
        right
        rcases h.2.2.2.1 uo pos with hex | hws
        · exact absurd hex hno
        · exact ⟨d, by rw [← hws]; exact hm', hassign⟩
      exact synthInv_create h huo hpos hno hreq _ _ _
    · exact h

/-- Phase A at one use preserves the synthesis invariant. -/
theorem synthInv_phaseAuse {block : List Bytecode} {s : SynthState} {uo : Nat}
    (h : SynthInv block s) (huo : uo < block.length) :
    SynthInv block (phaseAuse block s uo) := by
  unfold phaseAuse
  split
  · exact h
  · split
    · exact h
    · next defs0 hg =>
      have hlen0 : defs0.length = (block.getD uo defaultInstr).sources.length :=
        h.2.2.2.2.2.1 uo defs0 hg
      refine foldl_inv (σ := SynthState) (fun s2 => SynthInv block s2) _ _ _ h ?_
      intro s2 pos hs2 hmem
      have hb := List.mem_range.mp hmem
      have hpos : pos + 1 < (block.getD uo defaultInstr).sources.length := by
        rcases lt_min_iff.mp hb with ⟨h1, _⟩
        by_cases hemp : defs0.isEmpty
        · rw [if_pos hemp] at h1
          exact absurd h1 (Nat.not_lt_zero _)
        · rw [if_neg hemp] at h1
          have hnz : defs0.length ≠ 0 := by
            cases defs0 with
            | nil => simp at hemp
            | cons a t => simp
          omega
      exact synthInv_phaseAslot hs2 huo hpos

/-- Phase A preserves the synthesis invariant. -/
theorem synthInv_phaseA {block : List Bytecode} {s : SynthState}
    (h : SynthInv block s) : SynthInv block (phaseA block s) := by
  unfold phaseA
  refine foldl_inv (σ := SynthState) (fun s2 => SynthInv block s2) _ _ _ h ?_
  intro s2 uo hs2 hmem
  exact synthInv_phaseAuse hs2 (List.mem_range.mp hmem)

/-- The synthesis invariant holds at the initial state. -/
theorem synthInv_init (block : List Bytecode) :
    SynthInv block ⟨(walk block).graph, [], [], []⟩ := by
  refine ⟨rfl, ?_, ?_, ?_, ?_, ?_, ?_⟩
  · intro e he; cases he
  · intro e he; cases he
  · intro u pos
    right
    rfl
  · intro u
    rfl
  · intro u l hl
    rw [(walk_char block).2.1 u] at hl
    split at hl
    · have hleq : l = (block.getD u defaultInstr).sources.map (latestWriteBefore block u) := by
        injection hl with h2
        exact h2.symm
      rw [hleq]
      simp
    · cases hl
  · intro u pos p hp
    have h1 := (walkSlot_lt hp).1
    have h2 := (walkSlot_lt hp).2.1
    show p < block.length + ([] : List Bytecode).length
    simp only [List.length_nil]
    omega

end InstrReorder

namespace InstrReorder

/-- A fold both preserves an invariant and establishes, for every processed
element, a posterior that persists under further steps. -/
theorem foldl_post {σ β : Type _} (Inv : σ → Prop) (P : σ → β → Prop) (f : σ → β → σ) :
    ∀ (l : List β) (s : σ), Inv s →
      (∀ s x, Inv s → x ∈ l → Inv (f s x)) →
      (∀ s x, Inv s → x ∈ l → P (f s x) x) →
      (∀ s x y, Inv s → y ∈ l → P s x → P (f s y) x) →
      ∀ x ∈ l, P (l.foldl f s) x := by
  intro l
  induction l with
  | nil => intro s _ _ _ _ x hx; cases hx
  | cons a t ih =>
    intro s hs hinv hest hpers x hx
    rw [List.foldl_cons]
    rcases List.mem_cons.mp hx with rfl | hxt
    · have h1 : Inv (f s x) := hinv s x hs (List.mem_cons_self _ _)
      have h2 : P (f s x) x := hest s x hs (List.mem_cons_self _ _)
      have h3 := foldl_inv (σ := σ) (fun s2 => Inv s2 ∧ P s2 x) f t (f s x) ⟨h1, h2⟩ ?_
      · exact h3.2
      · intro s2 y hy hmem
        exact ⟨hinv s2 y hy.1 (List.mem_cons_of_mem _ hmem),
          hpers s2 x y hy.1 (List.mem_cons_of_mem _ hmem) hy.2⟩
    · exact ih (f s a) (hinv s a hs (List.mem_cons_self _ _))
        (fun s2 y h2 hm => hinv s2 y h2 (List.mem_cons_of_mem _ hm))
        (fun s2 y h2 hm => hest s2 y h2 (List.mem_cons_of_mem _ hm))
        (fun s2 x2 y h2 hm hp => hpers s2 x2 y h2 (List.mem_cons_of_mem _ hm) hp)
        x hxt

theorem mem_pum_phaseAslot {block : List Bytecode} {uo : Nat} {s : SynthState} {pos : Nat}
    {e : Nat × Nat × Nat × Bool} (he : e ∈ s.pum) :
    e ∈ (phaseAslot block uo s pos).pum := by
  unfold phaseAslot
  split
  · exact List.mem_append_left _ he
  · split
    · exact List.mem_append_left _ he
    · exact he

theorem mem_pum_phaseAuse {block : List Bytecode} {s : SynthState} {uo : Nat}
    {e : Nat × Nat × Nat × Bool} (he : e ∈ s.pum) :
    e ∈ (phaseAuse block s uo).pum := by
  unfold phaseAuse
  split
  · exact he
  · split
    · exact he
    · refine foldl_inv (σ := SynthState) (fun s2 => e ∈ s2.pum) _ _ _ he ?_
      intro s2 pos hs2 _
      exact mem_pum_phaseAslot hs2

/-- Flags stay honest through phase A (only `false` flags are appended). -/
theorem flagsOk_phaseAslot {block : List Bytecode} {uo : Nat} {s : SynthState} {pos : Nat}
    (hF : FlagsOk block s) : FlagsOk block (phaseAslot block uo s pos) := by
  unfold phaseAslot
  split
  · intro e he htrue
    rcases List.mem_append.mp he with hold | hnew
    · exact hF e hold htrue
    · rcases List.mem_singleton.mp hnew with rfl
      cases htrue
  · split
    · intro e he htrue
      rcases List.mem_append.mp he with hold | hnew
      · exact hF e hold htrue
      · rcases List.mem_singleton.mp hnew with rfl
        cases htrue
    · exact hF

theorem flagsOk_phaseAuse {block : List Bytecode} {s : SynthState} {uo : Nat}
    (hF : FlagsOk block s) : FlagsOk block (phaseAuse block s uo) := by
  unfold phaseAuse
  split
  · exact hF
  · split
    · exact hF
    · refine foldl_inv (σ := SynthState) (fun s2 => FlagsOk block s2) _ _ _ hF ?_
      intro s2 pos hs2 _
      exact flagsOk_phaseAslot hs2

theorem flagsOk_phaseA {block : List Bytecode} {s : SynthState}
    (hF : FlagsOk block s) : FlagsOk block (phaseA block s) := by
  unfold phaseA
  refine foldl_inv (σ := SynthState) (fun s2 => FlagsOk block s2) _ _ _ hF ?_
  intro s2 uo hs2 _
  exact flagsOk_phaseAuse hs2

/-- Phase A at one slot synthesizes the required `Prepare` (or it exists). -/
theorem phaseAslot_ensures {block : List Bytecode} {uo : Nat} {s : SynthState} {pos : Nat}
    (h : SynthInv block s)
    (hneeds : needsA block uo pos) :
    ∃ e ∈ (phaseAslot block uo s pos).pum, e.2.1 = uo ∧ e.2.2.1 = pos := by
  by_cases hex : ∃ e ∈ s.pum, e.2.1 = uo ∧ e.2.2.1 = pos
  · obtain ⟨e, he, h1, h2⟩ := hex
    exact ⟨e, mem_pum_phaseAslot he, h1, h2⟩
  · have hws : slotOf s.graph uo pos = walkSlot block uo pos := by
      rcases h.2.2.2.1 uo pos with hex2 | hws
      · exact absurd hex2 hex
      · exact hws
    unfold phaseAslot
    split
    · exact ⟨(block.length + s.preps.length, uo, pos, false),
        List.mem_append_right _ (List.mem_singleton_self _), rfl, rfl⟩
    · next d hm =>
      split
      · exact ⟨(block.length + s.preps.length, uo, pos, false),
          List.mem_append_right _ (List.mem_singleton_self _), rfl, rfl⟩
      · next hassign =>
        exfalso
        have hm' : slotOf s.graph uo pos = some d := hm
        rw [hws] at hm'
        rcases hneeds with hn | ⟨d2, hd2, hass2⟩
        · rw [hn] at hm'
          cases hm'
        · rw [hd2] at hm'
          have : d2 = d := Option.some.inj hm'
          rw [← this] at hassign
          exact hassign hass2

/-- Phase A at one use synthesizes all required `Prepare`s for that use. -/
theorem phaseAuse_ensures {block : List Bytecode} {s : SynthState} {uo : Nat}
    (h : SynthInv block s) (huo : uo < block.length) :
    ∀ pos, pos + 1 < (block.getD uo defaultInstr).sources.length →
      needsA block uo pos →
      ∃ e ∈ (phaseAuse block s uo).pum, e.2.1 = uo ∧ e.2.2.1 = pos := by
  intro pos hpos hneeds
  unfold phaseAuse
  split
  · next hlt => omega
  · next hge =>
    split
    · next hg =>
      exfalso
      have hsrc : (block.getD uo defaultInstr).sources ≠ [] := by
        intro hnil
        rw [hnil] at hpos
        simp at hpos
      have hwk := walk_graph_some_of block uo huo hsrc
      rw [← h.2.2.2.2.1 uo, hg] at hwk
      cases hwk
    · next defs0 hg =>
      have hlen0 : defs0.length = (block.getD uo defaultInstr).sources.length :=
        h.2.2.2.2.2.1 uo defs0 hg
      have hemp : defs0.isEmpty = false := by
        cases defs0 with
        | nil =>
          exfalso
          rw [List.length_nil] at hlen0
          omega
        | cons a t => rfl
      have hmem : pos ∈ List.range (min (if defs0.isEmpty then 0 else defs0.length - 1)
          (min defs0.length (block.getD uo defaultInstr).sources.length)) := by
        rw [List.mem_range]
        rw [if_neg (by rw [hemp]; simp)]
        refine lt_min_iff.mpr ⟨by omega, lt_min_iff.mpr ⟨by omega, by omega⟩⟩
      refine foldl_post (σ := SynthState) (β := Nat) (fun s2 => SynthInv block s2)
        (fun s2 pos2 => needsA block uo pos2 →
          ∃ e ∈ s2.pum, e.2.1 = uo ∧ e.2.2.1 = pos2)
        _ _ _ h ?_ ?_ ?_ pos hmem hneeds
      · intro s2 pos2 hs2 hm2
        have hb2 := List.mem_range.mp hm2
        have hpos2 : pos2 + 1 < (block.getD uo defaultInstr).sources.length := by
          rcases lt_min_iff.mp hb2 with ⟨h1, _⟩
          rw [if_neg (by rw [hemp]; simp)] at h1
          omega
        exact synthInv_phaseAslot hs2 huo hpos2
      · intro s2 pos2 hs2 hm2 hneeds2
        exact phaseAslot_ensures hs2 hneeds2
      · intro s2 pos2 y hs2 hmy hP hneeds2
        obtain ⟨e, he, h1, h2⟩ := hP hneeds2
        exact ⟨e, mem_pum_phaseAslot he, h1, h2⟩

/-- After phase A, every slot phase A must prepare has an entry. -/
theorem synthA_entries (block : List Bytecode) : NeedsAEntries block (synthA block) := by
  intro u pos hu hpos hneeds
  unfold synthA phaseA
  refine foldl_post (σ := SynthState) (β := Nat) (fun s2 => SynthInv block s2)
    (fun s2 uo => ∀ pos2, pos2 + 1 < (block.getD uo defaultInstr).sources.length →
      needsA block uo pos2 → ∃ e ∈ s2.pum, e.2.1 = uo ∧ e.2.2.1 = pos2)
    _ _ _ (synthInv_init block) ?_ ?_ ?_ u (List.mem_range.mpr hu) pos hpos hneeds
  · intro s2 uo hs2 hm
    exact synthInv_phaseAuse hs2 (List.mem_range.mp hm)
  · intro s2 uo hs2 hm pos2 hpos2 hneeds2
    exact phaseAuse_ensures hs2 (List.mem_range.mp hm) pos2 hpos2 hneeds2
  · intro s2 x y hs2 hmy hP pos2 hpos2 hneeds2
    obtain ⟨e, he, h1, h2⟩ := hP pos2 hpos2 hneeds2
    exact ⟨e, mem_pum_phaseAuse he, h1, h2⟩

theorem synthA_inv (block : List Bytecode) : SynthInv block (synthA block) :=
  synthInv_phaseA (synthInv_init block)

theorem synthA_flagsOk (block : List Bytecode) : FlagsOk block (synthA block) :=
  flagsOk_phaseA (fun e he _ => absurd he (List.not_mem_nil _))

end InstrReorder

namespace InstrReorder

theorem isEmpty_true_iff {α : Type _} {l : List α} (h : l.isEmpty = true) : l = [] := by
  cases l with
  | nil => rfl
  | cons a t => cases h

/-- Phase B at one pair preserves the synthesis invariant (the processed
pair belongs to a multiply-used definition). -/
theorem synthInv_phaseBpair {block : List Bytecode} {s : SynthState} {tmp : Nat}
    {pr : Nat × Nat} (h : SynthInv block s)
    (hmu : multiUseSlot block pr.1 pr.2) :
    SynthInv block (phaseBpair block tmp s pr) := by
  unfold phaseBpair
  split
  · exact h
  · next hguard =>
    split
    · exact h
    · next defs hg =>
      split
      · exact h
      · next d hd =>
        split
        · exact synthInv_flagmap h
        · next hlt =>
          have hd' : slotOf s.graph pr.1 pr.2 = some d := by
            unfold slotOf
            rw [hg]
            exact hd
          have hsome : (graphGet s.graph pr.1).isSome = true := by
            rw [hg]
            rfl
          have huo : pr.1 < block.length := by
            rw [h.2.2.2.2.1 pr.1] at hsome
            exact (walk_graph_some hsome).1
          have hlen : defs.length = (block.getD pr.1 defaultInstr).sources.length :=
            h.2.2.2.2.2.1 pr.1 defs hg
          have hposlt : pr.2 < defs.length := by
            by_contra hge2
            rw [List.getD_eq_default _ _ (Nat.le_of_not_lt hge2)] at hd
            cases hd
          have hpos : pr.2 + 1 < (block.getD pr.1 defaultInstr).sources.length := by
            have hnotlast : ¬ (pr.2 = (block.getD pr.1 defaultInstr).sources.length - 1) := by
              intro hc
              exact hguard (by simp [hc])
            omega
          have hno : ¬ ∃ e ∈ s.pum, e.2.1 = pr.1 ∧ e.2.2.1 = pr.2 := by
            rintro ⟨e, he, h1, h2⟩
            have hc := h.2.1 e he
            rw [h1, h2, hd'] at hc
            have hde : d = e.1 := Option.some.inj hc
            have hge := synthInv_key_ge h e he
            omega
          exact synthInv_create h huo hpos hno (Or.inr hmu) _ _ _

/-- Phase B at one pair keeps the flags honest. -/
theorem flagsOk_phaseBpair {block : List Bytecode} {s : SynthState} {tmp : Nat}
    {pr : Nat × Nat} (h : SynthInv block s) (hF : FlagsOk block s)
    (hmu : multiUseSlot block pr.1 pr.2) :
    FlagsOk block (phaseBpair block tmp s pr) := by
  unfold phaseBpair
  split
  · exact hF
  · split
    · exact hF
    · next defs hg =>
      split
      · exact hF
      · next d hd =>
        split
        · next hge =>
          intro e' he' htrue
          rcases List.mem_map.mp he' with ⟨e, he, rfl⟩
          have hu21 : (if e.1 = d then (e.1, e.2.1, e.2.2.1, true) else e).2.1 = e.2.1 := by
            split <;> rfl
          have hp21 : (if e.1 = d then (e.1, e.2.1, e.2.2.1, true) else e).2.2.1 = e.2.2.1 := by
            split <;> rfl
          rw [hu21, hp21]
          by_cases hed : e.1 = d
          · have hd' : slotOf s.graph pr.1 pr.2 = some d := by
              unfold slotOf
              rw [hg]
              exact hd
            obtain ⟨e2, he2, hk2, hu2, hp2⟩ := synthInv_slot_entry h hd' hge
            have hee : e = e2 := synthInv_entry_eq h e he e2 he2 (by rw [hed, hk2])
            rw [hee, hu2, hp2]
            exact hmu
          · rw [if_neg hed] at htrue
            exact hF e he htrue
        · intro e' he' htrue
          rcases List.mem_append.mp he' with hold | hnew
          · exact hF e' hold htrue
          · rcases List.mem_singleton.mp hnew with rfl
            exact hmu

/-- Phase B at one pair keeps the phase-A entries. -/
theorem needsAEntries_phaseBpair {block : List Bytecode} {s : SynthState} {tmp : Nat}
    {pr : Nat × Nat} (hN : NeedsAEntries block s) :
    NeedsAEntries block (phaseBpair block tmp s pr) := by
  intro u pos hu hpos hneeds
  obtain ⟨e, he, h1, h2⟩ := hN u pos hu hpos hneeds
  unfold phaseBpair
  split
  · exact ⟨e, he, h1, h2⟩
  · split
    · exact ⟨e, he, h1, h2⟩
    · next defs hg =>
      split
      · exact ⟨e, he, h1, h2⟩
      · next d hd =>
        split
        · refine ⟨(if e.1 = d then (e.1, e.2.1, e.2.2.1, true) else e),
            List.mem_map_of_mem _ he, ?_, ?_⟩
          · have : (if e.1 = d then (e.1, e.2.1, e.2.2.1, true) else e).2.1 = e.2.1 := by
              split <;> rfl
            rw [this, h1]
          · have : (if e.1 = d then (e.1, e.2.1, e.2.2.1, true) else e).2.2.1 = e.2.2.1 := by
              split <;> rfl
            rw [this, h2]
        · exact ⟨e, List.mem_append_left _ he, h1, h2⟩

/-- A true-flagged entry survives any phase-B step. -/
theorem flagged_persists_phaseBpair {block : List Bytecode} {s : SynthState} {tmp : Nat}
    {pr : Nat × Nat} {u pos : Nat}
    (h : ∃ e ∈ s.pum, e.2.1 = u ∧ e.2.2.1 = pos ∧ e.2.2.2 = true) :
    ∃ e ∈ (phaseBpair block tmp s pr).pum, e.2.1 = u ∧ e.2.2.1 = pos ∧ e.2.2.2 = true := by
  obtain ⟨e, he, h1, h2, h3⟩ := h
  unfold phaseBpair
  split
  · exact ⟨e, he, h1, h2, h3⟩
  · split
    · exact ⟨e, he, h1, h2, h3⟩
    · next defs hg =>
      split
      · exact ⟨e, he, h1, h2, h3⟩
      · next d hd =>
        split
        · refine ⟨(if e.1 = d then (e.1, e.2.1, e.2.2.1, true) else e),
            List.mem_map_of_mem _ he, ?_, ?_, ?_⟩
          · have : (if e.1 = d then (e.1, e.2.1, e.2.2.1, true) else e).2.1 = e.2.1 := by
              split <;> rfl
            rw [this, h1]
          · have : (if e.1 = d then (e.1, e.2.1, e.2.2.1, true) else e).2.2.1 = e.2.2.1 := by
              split <;> rfl
            rw [this, h2]
          · split
            · rfl
            · exact h3
        · exact ⟨e, List.mem_append_left _ he, h1, h2, h3⟩

/-- Phase B at one pair flags or creates the entry of a processed pair. -/
theorem phaseBpair_ensures {block : List Bytecode} {s : SynthState} {tmp : Nat}
    {pr : Nat × Nat} (h : SynthInv block s) (hN : NeedsAEntries block s)
    (hu : pr.1 < block.length)
    (hpos : pr.2 + 1 < (block.getD pr.1 defaultInstr).sources.length) :
    ∃ e ∈ (phaseBpair block tmp s pr).pum,
      e.2.1 = pr.1 ∧ e.2.2.1 = pr.2 ∧ e.2.2.2 = true := by
  unfold phaseBpair
  split
  · next hguard =>
    exfalso
    rcases Bool.or_eq_true_iff.mp hguard with h1 | h1
    · have := isEmpty_true_iff h1
      rw [this] at hpos
      simp at hpos
    · have h2 : pr.2 = (block.getD pr.1 defaultInstr).sources.length - 1 := by
        simpa using h1
      omega
  · next hguard =>
    split
    · next hg =>
      exfalso
      have hsrc : (block.getD pr.1 defaultInstr).sources ≠ [] := by
        intro hnil
        rw [hnil] at hpos
        simp at hpos
      have hwk := walk_graph_some_of block pr.1 hu hsrc
      rw [← h.2.2.2.2.1 pr.1, hg] at hwk
      cases hwk
    · next defs hg =>
      split
      · next hd =>
        exfalso
        have hslot : slotOf s.graph pr.1 pr.2 = none := by
          unfold slotOf
          rw [hg]
          exact hd
        rcases h.2.2.2.1 pr.1 pr.2 with ⟨e, he, h1, h2⟩ | hws
        · have hc := h.2.1 e he
          rw [h1, h2, hslot] at hc
          cases hc
        · rw [hslot] at hws
          have hneeds : needsA block pr.1 pr.2 := Or.inl hws.symm
          obtain ⟨e, he, h1, h2⟩ := hN pr.1 pr.2 hu hpos hneeds
          have hc := h.2.1 e he
          rw [h1, h2, hslot] at hc
          cases hc
      · next d hd =>
        split
        · next hge =>
          have hslot : slotOf s.graph pr.1 pr.2 = some d := by
            unfold slotOf
            rw [hg]
            exact hd
          obtain ⟨e, he, hk, h1, h2⟩ := synthInv_slot_entry h hslot hge
          refine ⟨(e.1, e.2.1, e.2.2.1, true), ?_, h1, h2, rfl⟩
          have heq : (if e.1 = d then (e.1, e.2.1, e.2.2.1, true) else e) =
              (e.1, e.2.1, e.2.2.1, true) := if_pos hk
          rw [← heq]
          exact List.mem_map_of_mem _ he
        · exact ⟨(block.length + s.preps.length, pr.1, pr.2, true),
            List.mem_append_right _ (List.mem_singleton_self _), rfl, rfl, rfl⟩

end InstrReorder

namespace InstrReorder

theorem enum_mem_char {α : Type _} (d : α) {l : List α} {oi : Nat × α} (h : oi ∈ l.enum) :
    oi.1 < l.length ∧ oi.2 = l.getD oi.1 d := by
  obtain ⟨i, hi, hoi⟩ := List.getElem_of_mem h
  have hil : i < l.length := by simpa using hi
  rw [List.getElem_enum] at hoi
  constructor
  · rw [← hoi]
    exact hil
  · rw [← hoi]
    show l[i] = l.getD i d
    rw [List.getD_eq_getElem _ _ hil]

theorem enum_mem_self {α : Type _} (d : α) {l : List α} {i : Nat} (h : i < l.length) :
    (i, l.getD i d) ∈ l.enum := by
  have hl : i < l.enum.length := by simpa using h
  have hmem := List.getElem_mem hl
  rw [List.getElem_enum] at hmem
  rw [List.getD_eq_getElem _ _ h]
  exact hmem

/-- The walk records each in-range source slot under its `useKey`. -/
theorem mem_usesList_self {block : List Bytecode} {u pos : Nat}
    (hu : u < block.length)
    (hpos : pos < (block.getD u defaultInstr).sources.length) :
    (useKey block u pos, (u, pos)) ∈ (walk block).usesList := by
  rw [(walk_char block).2.2]
  apply List.mem_flatMap.mpr
  refine ⟨(u, block.getD u defaultInstr), enum_mem_self defaultInstr hu, ?_⟩
  apply List.mem_map.mpr
  refine ⟨(pos, srcAt block u pos), ?_, rfl⟩
  exact enum_mem_self 0 hpos

/-- Membership in a `uses` bucket determines the key and bounds the pair. -/
theorem mem_usesPairs_key {block : List Bytecode} {κ : Nat × Option Nat} {pr : Nat × Nat}
    (h : pr ∈ usesPairs block κ) :
    κ = useKey block pr.1 pr.2 ∧ pr.1 < block.length ∧
      pr.2 < (block.getD pr.1 defaultInstr).sources.length := by
  unfold usesPairs at h
  have h2 := List.mem_dedup.mp h
  obtain ⟨e, hef, hsnd⟩ := List.mem_map.mp h2
  obtain ⟨heL, hekey⟩ := List.mem_filter.mp hef
  have hkey : e.1 = κ := by simpa using hekey
  rw [(walk_char block).2.2] at heL
  obtain ⟨oi, hoi, hein⟩ := List.mem_flatMap.mp heL
  obtain ⟨pi, hpi, heq⟩ := List.mem_map.mp hein
  obtain ⟨hoilt, hoi2⟩ := enum_mem_char defaultInstr hoi
  obtain ⟨hpilt, hpi2⟩ := enum_mem_char 0 hpi
  rw [← heq] at hkey hsnd
  have hsrc : pi.2 = srcAt block oi.1 pi.1 := by
    unfold srcAt
    rw [hpi2, hoi2]
  rw [← hsnd, ← hkey]
  refine ⟨?_, hoilt, ?_⟩
  · show (pi.2, latestWriteBefore block oi.1 pi.2) = useKey block oi.1 pi.1
    rw [hsrc]
    rfl
  · show pi.1 < (block.getD oi.1 defaultInstr).sources.length
    rw [← hoi2]
    exact hpilt

theorem mem_usesPairs_self {block : List Bytecode} {u pos : Nat}
    (hu : u < block.length)
    (hpos : pos < (block.getD u defaultInstr).sources.length) :
    (u, pos) ∈ usesPairs block (useKey block u pos) := by
  unfold usesPairs
  apply List.mem_dedup.mpr
  apply List.mem_map.mpr
  refine ⟨(useKey block u pos, (u, pos)), ?_, rfl⟩
  apply List.mem_filter.mpr
  exact ⟨mem_usesList_self hu hpos, by simp⟩

/-- Every in-range pair is covered by its (multi-set sized) `uses` group. -/
theorem usesGroups_cover {block : List Bytecode} {u pos : Nat}
    (hu : u < block.length)
    (hpos : pos < (block.getD u defaultInstr).sources.length) :
    ∃ kv ∈ usesGroups (walk block), kv.1 = useKey block u pos ∧ (u, pos) ∈ kv.2 ∧
      kv.2.length = (usesPairs block (useKey block u pos)).length := by
  have hkmem : useKey block u pos ∈ (walk block).usesList.map Prod.fst :=
    List.mem_map_of_mem Prod.fst (mem_usesList_self hu hpos)
  have hks : useKey block u pos ∈
      stableSort keyLt ((walk block).usesList.map Prod.fst).dedup :=
    ((stableSort_perm keyLt _).mem_iff).mpr (List.mem_dedup.mpr hkmem)
  refine ⟨(useKey block u pos, stableSort pairLt (usesPairs block (useKey block u pos))),
    ?_, rfl, ?_, ?_⟩
  · show _ ∈ usesGroups (walk block)
    unfold usesGroups
    exact List.mem_map_of_mem _ hks
  · exact ((stableSort_perm pairLt _).mem_iff).mpr (mem_usesPairs_self hu hpos)
  · exact (stableSort_perm pairLt _).length_eq

/-- Facts about a pair drawn from a `uses` group. -/
theorem usesGroups_pair_facts {block : List Bytecode}
    {kv : (Nat × Option Nat) × List (Nat × Nat)}
    (hkv : kv ∈ usesGroups (walk block)) {pr : Nat × Nat} (hpr : pr ∈ kv.2) :
    pr.1 < block.length ∧ pr.2 < (block.getD pr.1 defaultInstr).sources.length ∧
      (1 < kv.2.length → multiUseSlot block pr.1 pr.2) := by
  unfold usesGroups at hkv
  obtain ⟨k, hk, hkeq⟩ := List.mem_map.mp hkv
  rw [← hkeq] at hpr
  have hpr2 : pr ∈ usesPairs block k :=
    ((stableSort_perm pairLt (usesPairs block k)).mem_iff).mp hpr
  obtain ⟨hkey, h1, h2⟩ := mem_usesPairs_key hpr2
  refine ⟨h1, h2, ?_⟩
  intro hlen
  unfold multiUseSlot
  rw [← hkey]
  have hle := (stableSort_perm pairLt (usesPairs block k)).length_eq
  rw [← hkeq] at hlen
  have hlen2 : 1 < (stableSort pairLt (usesPairs block k)).length := hlen
  omega

theorem synthAll_group_step {block : List Bytecode} {s2 : SynthState}
    {kv : (Nat × Option Nat) × List (Nat × Nat)}
    (hs2 : SynthAll block s2) (hkv : kv ∈ usesGroups (walk block)) :
    SynthAll block
      (if 1 < kv.2.length then kv.2.foldl (phaseBpair block kv.1.1) s2 else s2) := by
  split
  · next hlen =>
    refine foldl_inv (σ := SynthState) (fun s3 => SynthAll block s3) _ _ _ hs2 ?_
    intro s3 pr hs3 hpr
    have hmu := (usesGroups_pair_facts hkv hpr).2.2 hlen
    exact ⟨synthInv_phaseBpair hs3.1 hmu, flagsOk_phaseBpair hs3.1 hs3.2.1 hmu,
      needsAEntries_phaseBpair hs3.2.2⟩
  · exact hs2

theorem group_step_ensures {block : List Bytecode} {s2 : SynthState}
    {kv : (Nat × Option Nat) × List (Nat × Nat)} {u pos : Nat}
    (hs2 : SynthAll block s2) (hkv : kv ∈ usesGroups (walk block))
    (hu : u < block.length)
    (hpos : pos + 1 < (block.getD u defaultInstr).sources.length)
    (hin : (u, pos) ∈ kv.2) (hlen : 1 < kv.2.length) :
    ∃ e ∈ (if 1 < kv.2.length then kv.2.foldl (phaseBpair block kv.1.1) s2 else s2).pum,
      e.2.1 = u ∧ e.2.2.1 = pos ∧ e.2.2.2 = true := by
  rw [if_pos hlen]
  refine foldl_post (σ := SynthState) (β := Nat × Nat) (fun s3 => SynthAll block s3)
    (fun s3 pr => pr.1 < block.length →
      pr.2 + 1 < (block.getD pr.1 defaultInstr).sources.length →
      ∃ e ∈ s3.pum, e.2.1 = pr.1 ∧ e.2.2.1 = pr.2 ∧ e.2.2.2 = true)
    _ _ _ hs2 ?_ ?_ ?_ (u, pos) hin hu hpos
  · intro s3 pr hs3 hpr
    have hmu := (usesGroups_pair_facts hkv hpr).2.2 hlen
    exact ⟨synthInv_phaseBpair hs3.1 hmu, flagsOk_phaseBpair hs3.1 hs3.2.1 hmu,
      needsAEntries_phaseBpair hs3.2.2⟩
  · intro s3 pr hs3 hpr h1 h2
    exact phaseBpair_ensures hs3.1 hs3.2.2 h1 h2
  · intro s3 pr y hs3 hmy hP h1 h2
    exact flagged_persists_phaseBpair (hP h1 h2)

theorem flagged_persists_group {block : List Bytecode} {s2 : SynthState}
    {kv : (Nat × Option Nat) × List (Nat × Nat)} {u pos : Nat}
    (h : ∃ e ∈ s2.pum, e.2.1 = u ∧ e.2.2.1 = pos ∧ e.2.2.2 = true) :
    ∃ e ∈ (if 1 < kv.2.length then kv.2.foldl (phaseBpair block kv.1.1) s2 else s2).pum,
      e.2.1 = u ∧ e.2.2.1 = pos ∧ e.2.2.2 = true := by
  split
  · refine foldl_inv (σ := SynthState)
      (fun s3 => ∃ e ∈ s3.pum, e.2.1 = u ∧ e.2.2.1 = pos ∧ e.2.2.2 = true) _ _ _ h ?_
    intro s3 pr hs3 _
    exact flagged_persists_phaseBpair hs3
  · exact h

/-- The bundled invariant holds at the end of the synthesis. -/
theorem synthB_all (block : List Bytecode) : SynthAll block (synthB block) := by
  unfold synthB phaseB
  refine foldl_inv (σ := SynthState) (fun s2 => SynthAll block s2) _ _ _
    ⟨synthA_inv block, synthA_flagsOk block, synthA_entries block⟩ ?_
  intro s2 kv hs2 hkv
  exact synthAll_group_step hs2 hkv

/-- Every multiply-used, in-block, non-last slot ends with a true-flagged
prepare-use entry. -/
theorem synthB_flag_entries (block : List Bytecode) :
    ∀ u pos, u < block.length →
      pos + 1 < (block.getD u defaultInstr).sources.length →
      multiUseSlot block u pos →
      ∃ e ∈ (synthB block).pum, e.2.1 = u ∧ e.2.2.1 = pos ∧ e.2.2.2 = true := by
  intro u pos hu hpos hmu
  obtain ⟨kv, hkv, hk1, hkin, hklen⟩ := usesGroups_cover hu
    (show pos < (block.getD u defaultInstr).sources.length by omega)
  have hlen : 1 < kv.2.length := by
    unfold multiUseSlot at hmu
    omega
  unfold synthB phaseB
  refine foldl_post (σ := SynthState) (β := (Nat × Option Nat) × List (Nat × Nat))
    (fun s2 => SynthAll block s2)
    (fun s2 kv2 => (u, pos) ∈ kv2.2 → 1 < kv2.2.length →
      ∃ e ∈ s2.pum, e.2.1 = u ∧ e.2.2.1 = pos ∧ e.2.2.2 = true)
    _ _ _ ⟨synthA_inv block, synthA_flagsOk block, synthA_entries block⟩
    ?_ ?_ ?_ kv hkv hkin hlen
  · intro s2 kv2 hs2 hm2
    exact synthAll_group_step hs2 hm2
  · intro s2 kv2 hs2 hm2 hin2 hlen2
    exact group_step_ensures hs2 hm2 hu hpos hin2 hlen2
  · intro s2 kv2 y hs2 hmy hP hin2 hlen2
    exact flagged_persists_group (hP hin2 hlen2)

end InstrReorder

namespace InstrReorder

set_option maxRecDepth 400000 in
/-- C3 counterexample: in `exTwoUseBlock` the temporary 20 has two recorded
uses, but only one of them sits in a non-last source position; the claim
would demand `MultiUse = false` for its `Prepare`, yet the pass flags it
`true` (the flag counts all uses of the definition, last positions
included). -/
theorem C3_counterexample :
    ∃ e ∈ (synthB exTwoUseBlock).pum, e.2.2.2 = true ∧
      ((usesPairs exTwoUseBlock (useKey exTwoUseBlock e.2.1 e.2.2.1)).filter
        (fun pr => pr.2 + 1 <
          (exTwoUseBlock.getD pr.1 defaultInstr).sources.length)).length ≤ 1 := by
  decide

/-- C3 (amended): a prepare-use entry carries `MultiUse = true` exactly when
the definition feeding its `(use, position)` slot has more than one recorded
use in the `uses` index (uses in last source positions included). -/
theorem C3_multiuse_flag_iff (block : List Bytecode) :
    ∀ e ∈ (synthB block).pum,
      e.2.2.2 = true ↔ multiUseSlot block e.2.1 e.2.2.1 := by
  obtain ⟨hInv, hF, -⟩ := synthB_all block
  intro e he
  constructor
  · exact hF e he
  · intro hmu
    have hP := hInv.2.2.1 e he
    obtain ⟨e2, he2, h1, h2, h3⟩ := synthB_flag_entries block e.2.1 e.2.2.1 hP.1 hP.2.1 hmu
    have hee : e2 = e := synthInv_pair_unique hInv e2 he2 e he h1 h2
    rw [← hee]
    exact h3

set_option maxRecDepth 400000 in
theorem C3_witness :
    (4, 0, 0, true) ∈ (synthB exCycleBlock).pum ∧ multiUseSlot exCycleBlock 0 0 :=
  ⟨by decide, (C3_multiuse_flag_iff exCycleBlock (4, 0, 0, true) (by decide)).mp rfl⟩

/-- C6: the first half of the claim is false.  On `exLatePrepBlock` the
synthesized `Prepare` starts at post-synthesis offset 2, behind the unrelated
`Assign` at offset 1.  No instruction seeds a DFS run, so for the pair
(`Prepare`, `Assign`) the comparator falls through to the original-offset
tie-break and answers `Greater`; the insertion sort stops the `Prepare` there
and never compares it with its use at offset 0.  The reordered block keeps
the order `[use, Assign, Prepare]`, and the remapped prepare-use map records
the `Prepare` at offset 2 preparing the use at offset 0: the `Prepare` is
placed strictly after its use. -/
theorem C6_counterexample :
    ∃ e ∈ touchUseOf exLatePrepBlock anyTarget, e.2.1 < e.1 := by
  decide

/-- C6 (amended): the comparator of `get_ordered_instr_indices` ranks every
synthesized `Prepare` strictly before the use it prepares (a true-dependence
edge from the `Prepare` offset to the use offset is in the closed dependence
constraints), and no two prepare-use entries share a `(use, position)` key;
the pass can still place a `Prepare` after its use, because the insertion
sort consults the comparator only on the pairs it happens to probe and the
comparator is not transitive: an instruction unrelated to the `Prepare` can
stop its leftward shift before it is ever compared with its use. -/
theorem C6_prepare_ranked_before_use (block : List Bytecode) (target : Nat → Bool) :
    (∀ e ∈ (synthB block).pum,
      cmpOffsets (depsOf block target).edges (dfsOf block) e.1 e.2.1 = Ordering.lt) ∧
    (∀ e1 ∈ (synthB block).pum, ∀ e2 ∈ (synthB block).pum,
      e1.2.1 = e2.2.1 → e1.2.2.1 = e2.2.2.1 → e1.1 = e2.1) := by
  obtain ⟨hInv, -, -⟩ := synthB_all block
  constructor
  · intro e he
    have hc := hInv.2.1 e he
    rcases hg : graphGet (synthB block).graph e.2.1 with _ | defs
    · exfalso
      unfold slotOf at hc
      rw [hg] at hc
      simp at hc
    · have hslot : defs.getD e.2.2.1 none = some e.1 := by
        unfold slotOf at hc
        rw [hg] at hc
        exact hc
      have hmem : some e.1 ∈ defs := getD_none_mem hslot
      have hfin : graphGet (useDefGraphOf block) e.2.1 = some defs := by
        have hv : useDefGraphOf block = (synthB block).graph ++
            ((synthB block).prepEdges.map (fun pd => (pd.1, [some pd.2]))) := rfl
        rw [hv]
        unfold graphGet at hg ⊢
        rw [List.find?_append, option_map_or, hg, Option.or_some]
      have hentmem : (e.2.1, defs) ∈ useDefGraphOf block := by
        unfold graphGet at hfin
        rcases hf : (useDefGraphOf block).find? (fun ent => ent.1 = e.2.1) with _ | ent
        · rw [hf] at hfin
          cases hfin
        · rw [hf] at hfin
          simp only [Option.map_some'] at hfin
          have h2 : ent.2 = defs := Option.some.inj hfin
          have hkey : ent.1 = e.2.1 := by simpa using List.find?_some hf
          have hm := List.mem_of_find?_eq_some hf
          have hent : ent = (e.2.1, defs) := Prod.ext hkey h2
          rw [← hent]
          exact hm
      have hedge : (e.1, e.2.1) ∈ (add_true_dependencies
          (add_false_dependencies initConstraints (newBlockOf block))
          (useDefGraphOf block)).edges :=
        add_true_dependencies_mem hentmem hmem
      have hedge2 : (e.1, e.2.1) ∈ (preClosureConstraints (newBlockOf block)
          (useDefGraphOf block) target).edges := by
        unfold preClosureConstraints
        exact add_relatively_non_reorderable_dependencies_mono
          (add_ref_arg_dependencies_mono hedge)
      have hedge3 := preClosure_subset_closure hedge2
      apply cmpOffsets_lt_of_edge
      simpa using hedge3
  · intro e1 h1 e2 h2 hu hpos
    have hee := synthInv_pair_unique hInv e1 h1 e2 h2 hu hpos
    rw [hee]

set_option maxRecDepth 400000 in
theorem C6_witness :
    (4, 0, 0, true) ∈ (synthB exCycleBlock).pum ∧
    cmpOffsets (depsOf exCycleBlock exCycleTarget).edges (dfsOf exCycleBlock) 4 0 =
      Ordering.lt :=
  ⟨by decide,
    (C6_prepare_ranked_before_use exCycleBlock exCycleTarget).1 (4, 0, 0, true) (by decide)⟩

/-- C7: every prepare-use entry names an in-block use at a non-last source
position; a `(use, position)` slot receives a `Prepare` exactly when it
requires preparation (outside definition, `Assign` definition, or
multiply-used definition, at a non-last position); and no two entries share
a `(use, position)` pair. -/
theorem C7_prepare_per_slot (block : List Bytecode) :
    (∀ e ∈ (synthB block).pum, e.2.1 < block.length ∧
      e.2.2.1 + 1 < (block.getD e.2.1 defaultInstr).sources.length) ∧
    (∀ u pos, requiresPreparation block u pos ↔
      ∃ e ∈ (synthB block).pum, e.2.1 = u ∧ e.2.2.1 = pos) ∧
    (∀ e1 ∈ (synthB block).pum, ∀ e2 ∈ (synthB block).pum,
      e1.2.1 = e2.2.1 → e1.2.2.1 = e2.2.2.1 → e1 = e2) := by
  obtain ⟨hInv, -, hN⟩ := synthB_all block
  refine ⟨?_, ?_, synthInv_pair_unique hInv⟩
  · intro e he
    exact ⟨(hInv.2.2.1 e he).1, (hInv.2.2.1 e he).2.1⟩
  · intro u pos
    constructor
    · rintro ⟨hu, hpos, hdisj⟩
      rcases hdisj with hnone | ⟨d, hd, hda⟩ | hmulti
      · refine hN u pos hu hpos ?_
        left
        rw [walkSlot_eq block u pos hu (by omega)]
        exact hnone
      · refine hN u pos hu hpos ?_
        right
        exact ⟨d, by rw [walkSlot_eq block u pos hu (by omega)]; exact hd, hda⟩
      · obtain ⟨e, he, h1, h2, -⟩ := synthB_flag_entries block u pos hu hpos hmulti
        exact ⟨e, he, h1, h2⟩
    · rintro ⟨e, he, h1, h2⟩
      subst h1
      subst h2
      have hP := hInv.2.2.1 e he
      refine ⟨hP.1, hP.2.1, ?_⟩
      rcases hP.2.2 with hneeds | hmulti
      · rcases hneeds with hnone | ⟨d, hd, hda⟩
        · left
          rw [← walkSlot_eq block e.2.1 e.2.2.1 hP.1 (by omega)]
          exact hnone
        · right
          left
          exact ⟨d, by
            rw [← walkSlot_eq block e.2.1 e.2.2.1 hP.1 (by omega)]
            exact hd, hda⟩
      · right
        right
        exact hmulti

set_option maxRecDepth 400000 in
theorem C7_witness :
    requiresPreparation exCycleBlock 0 0 ∧ (4, 0, 0, true) ∈ (synthB exCycleBlock).pum :=
  ⟨((C7_prepare_per_slot exCycleBlock).2.1 0 0).mpr ⟨(4, 0, 0, true), by decide, rfl, rfl⟩,
   by decide⟩

end InstrReorder
